import Mathlib

/-
  Verification development for the molt-shield anonymization core:
  a shallow embedding of src/vault.py, src/policy_engine.py and
  src/gatekeeper.py, together with proofs about the embedded code.

  Machine-level conventions of the embedding:
  * Python strings are Lean `String`; character-level scans work on `String.data`.
  * Python dicts (insertion ordered, unique keys, assignment replaces in place)
    are association lists with `dictSet` / `dictGet`.
  * `uuid.uuid4().hex` and `datetime.now(...).isoformat()` are modelled as
    ambient entropy/clock streams `Entropy.uuids / Entropy.times : Nat → String`
    together with a draw counter that the code threads; `uuid4().hex[:12]`
    keeps its `take 12` truncation inside the embedded code.
  * `random.Random(seed)` is modelled by a generator structure holding a value
    stream; a seeded generator takes its stream from a fixed seed-indexed
    family `mt`, an unseeded one from ambient entropy (see `mkRandom`).
  * Fallible operations return `Except PyError _`; `PyError` lists the
    exception kinds relevant to the claims.
-/

namespace MoltShield

/-! ## Character-level helpers (Python `str.strip`, the numeric grammar) -/

/-- ASCII whitespace, the characters relevant to `str.strip()` here. -/
def isSpaceCh (c : Char) : Bool :=
  c = ' ' || c = '\t' || c = '\n' || c = '\r'

/-- Model of Python `str.strip()` on the character list. -/
def stripChars (l : List Char) : List Char :=
  ((l.dropWhile isSpaceCh).reverse.dropWhile isSpaceCh).reverse

/-- Model of Python `str.strip()`. -/
def pyStrip (s : String) : String :=
  String.mk (stripChars s.data)

def isDigitCh (c : Char) : Bool :=
  '0' ≤ c && c ≤ '9'

/-- ASCII `[a-zA-Z0-9]`, the alphanumeric class of the rehydration regex. -/
def isAlnumCh (c : Char) : Bool :=
  ('a' ≤ c && c ≤ 'z') || ('A' ≤ c && c ≤ 'Z') || ('0' ≤ c && c ≤ '9')

/-- Full match against the numeric grammar `-?\d+\.?\d*` after the optional
sign: one or more digits, an optional dot, then trailing digits. -/
def numBody (l : List Char) : Bool :=
  let ds := l.takeWhile isDigitCh
  let rest := l.dropWhile isDigitCh
  !ds.isEmpty &&
    (match rest with
     | [] => true
     | '.' :: t => t.all isDigitCh
     | _ => false)

/-- Full match of the default numeric pattern `-?\d+\.?\d*`
(`MaskingConfig.value_pattern` default; also the language of the detector's
anchored `_NUMERIC_RE = ^-?\d+\.?\d*$`). -/
def numFullMatch (l : List Char) : Bool :=
  match l with
  | '-' :: rest => numBody rest
  | rest => numBody rest

/-! ## Python dict model -/

/-- Python dict assignment `d[k] = v`: replace in place if the key exists,
else append at the end (insertion order). -/
def dictSet {β : Type} : List (String × β) → String → β → List (String × β)
  | [], k, v => [(k, v)]
  | (k', v') :: t, k, v =>
      if k' = k then (k, v) :: t else (k', v') :: dictSet t k v

/-- Python dict lookup `d.get(k)`. -/
def dictGet {β : Type} : List (String × β) → String → Option β
  | [], _ => none
  | (k', v') :: t, k => if k' = k then some v' else dictGet t k

/-! ## Vault (src/vault.py) -/

/-- `VaultEntry` dataclass: a single placeholder ↔ original mapping. -/
structure VaultEntry where
  masked_value : String
  original_value : String
  created_at : String
deriving DecidableEq, Repr

/-- Ambient nondeterminism consumed by the code: the stream of
`uuid.uuid4().hex` draws and of `datetime.now(...)` timestamps. -/
structure Entropy where
  uuids : Nat → String
  times : Nat → String

/-- `Vault`: path plus the in-memory entries dict. -/
structure Vault where
  path : String
  entries : List (String × VaultEntry)
deriving DecidableEq

/-- `Vault.store(original)` (the `format_str` parameter keeps its default
`"VAL_{uuid}"` at every call site in the repository, so the formatting step
is embedded at that default): draw `uuid4().hex`, truncate to 12 characters,
build `"VAL_" + uid`, insert the entry (dict assignment: replaces silently on
key collision), return the placeholder.  The draw counter advances by one. -/
def Vault.store (E : Entropy) (v : Vault) (k : Nat) (original : String) :
    String × Vault × Nat :=
  let uid := ((E.uuids k).data.take 12)
  let masked := "VAL_" ++ String.mk uid
  let entry : VaultEntry :=
    ⟨masked, original, E.times k⟩
  (masked, ⟨v.path, dictSet v.entries masked entry⟩, k + 1)

/-- `Vault.restore(masked)`: pure lookup, `None` when unknown. -/
def Vault.restore (v : Vault) (masked : String) : Option String :=
  (dictGet v.entries masked).map (fun e => e.original_value)

/-- `Vault.rehydrate_value(value)`: the original when `value` is a known
placeholder, otherwise `value` unchanged. -/
def Vault.rehydrate_value (v : Vault) (value : String) : String :=
  match v.restore value with
  | some o => o
  | none => value

/-- The placeholder produced by the `k`-th draw of the run. -/
def ph (E : Entropy) (k : Nat) : String :=
  "VAL_" ++ String.mk ((E.uuids k).data.take 12)

/-! ### Structured rehydration (`Vault.rehydrate_dict`) -/

/-- Generic nested JSON-ish value handled by `rehydrate_dict`:
dict, list, string, or any other scalar (collapsed to `scalar`). -/
inductive JVal where
  | s (v : String)
  | obj (l : List (String × JVal))
  | arr (l : List JVal)
  | scalar (n : Int)

mutual

/-- `Vault.rehydrate_dict(data)`: recursive rewrite; every string leaf goes
through `rehydrate_value`, other scalars pass through. -/
def Vault.rehydrate_dict (v : Vault) : JVal → JVal
  | JVal.s x => JVal.s (v.rehydrate_value x)
  | JVal.obj l => JVal.obj (rehydrateObj v l)
  | JVal.arr l => JVal.arr (rehydrateArr v l)
  | JVal.scalar n => JVal.scalar n

def rehydrateObj (v : Vault) : List (String × JVal) → List (String × JVal)
  | [] => []
  | (k, x) :: t => (k, v.rehydrate_dict x) :: rehydrateObj v t

def rehydrateArr (v : Vault) : List JVal → List JVal
  | [] => []
  | x :: t => v.rehydrate_dict x :: rehydrateArr v t

end

/-! ### Text rehydration (`Vault.rehydrate_xml`) -/

/-- One attempt of the regex `VAL_[a-zA-Z0-9]+` at the start of the input:
on success returns the (maximal-munch) token and the rest. -/
def matchAt : List Char → Option (List Char × List Char)
  | a :: b :: c :: d :: rest =>
      if a = 'V' ∧ b = 'A' ∧ c = 'L' ∧ d = '_' then
        let run := rest.takeWhile isAlnumCh
        if run = [] then none
        else some (a :: b :: c :: d :: run, rest.dropWhile isAlnumCh)
      else none
  | _ => none

theorem matchAt_some {l tok rest} (h : matchAt l = some (tok, rest)) :
    ∃ tail, l = 'V' :: 'A' :: 'L' :: '_' :: tail ∧
      tail.takeWhile isAlnumCh ≠ [] ∧
      tok = 'V' :: 'A' :: 'L' :: '_' :: tail.takeWhile isAlnumCh ∧
      rest = tail.dropWhile isAlnumCh := by
  match l with
  | [] => simp [matchAt] at h
  | [a] => simp [matchAt] at h
  | [a, b] => simp [matchAt] at h
  | [a, b, c] => simp [matchAt] at h
  | a :: b :: c :: d :: tail =>
    by_cases hc : a = 'V' ∧ b = 'A' ∧ c = 'L' ∧ d = '_'
    · obtain ⟨h1, h2, h3, h4⟩ := hc
      subst h1; subst h2; subst h3; subst h4
      by_cases hr : tail.takeWhile isAlnumCh = []
      · simp [matchAt, hr] at h
      · refine ⟨tail, rfl, hr, ?_⟩
        simp [matchAt, hr] at h
        exact ⟨h.1.symm, h.2.symm⟩
    · simp [matchAt, hc] at h

theorem matchAt_length {l tok rest} (h : matchAt l = some (tok, rest)) :
    rest.length < l.length := by
  obtain ⟨tail, hl, hne, htok, hrest⟩ := matchAt_some h
  subst hl; subst hrest
  have h1 : (tail.dropWhile isAlnumCh).length ≤ tail.length :=
    List.Sublist.length_le (List.dropWhile_sublist _)
  simp only [List.length_cons]
  omega

/-- The scan underlying `re.sub(r"VAL_[a-zA-Z0-9]+", repl, s)`, with a
structural fuel parameter (one unit per consumed character suffices):
leftmost non-overlapping maximal matches, each replaced through `restore`
(an unknown token is kept as-is), everything else copied. -/
def subScanF (v : Vault) : Nat → List Char → List Char
  | 0, _ => []
  | fuel + 1, l =>
      match matchAt l with
      | some (tok, rest) =>
          (match v.restore (String.mk tok) with
           | some o => o.data
           | none => tok) ++ subScanF v fuel rest
      | none =>
          match l with
          | [] => []
          | c :: cs => c :: subScanF v fuel cs

def subScan (v : Vault) (l : List Char) : List Char :=
  subScanF v l.length l

theorem subScanF_fuel (v : Vault) :
    ∀ (fuel : Nat) (l : List Char), l.length ≤ fuel →
      subScanF v fuel l = subScan v l := by
  intro fuel
  induction fuel using Nat.strong_induction_on with
  | _ fuel ih =>
    match fuel with
    | 0 =>
      intro l hl
      have : l = [] := List.eq_nil_of_length_eq_zero (by omega)
      subst this
      rfl
    | Nat.succ n =>
      intro l hl
      cases hm : matchAt l with
      | some pr =>
        obtain ⟨tok, rest⟩ := pr
        have hlen := matchAt_length hm
        have hlpos : 0 < l.length := by omega
        obtain ⟨m, hml⟩ : ∃ m, l.length = m + 1 := ⟨l.length - 1, by omega⟩
        have h1 : subScanF v (n + 1) l =
            (match v.restore (String.mk tok) with
             | some o => o.data
             | none => tok) ++ subScanF v n rest := by
          simp [subScanF, hm]
        have h2 : subScan v l =
            (match v.restore (String.mk tok) with
             | some o => o.data
             | none => tok) ++ subScanF v m rest := by
          rw [subScan, hml]
          simp [subScanF, hm]
        rw [h1, h2]
        rw [ih n (by omega) rest (by omega), ih m (by omega) rest (by omega)]
      | none =>
        cases l with
        | nil => rfl
        | cons c cs =>
          have h1 : subScanF v (n + 1) (c :: cs) = c :: subScanF v n cs := by
            simp [subScanF, hm]
          have h2 : subScan v (c :: cs) = c :: subScanF v cs.length cs := by
            rw [subScan]
            simp [subScanF, hm]
          rw [h1, h2]
          rw [ih n (by omega) cs (by simpa using hl),
              ih cs.length (by simp at hl; omega) cs le_rfl]

/-- The one-step equation of the scan at a match. -/
theorem subScan_eq_some {v : Vault} {l tok rest : List Char}
    (hm : matchAt l = some (tok, rest)) :
    subScan v l =
      (match v.restore (String.mk tok) with
       | some o => o.data
       | none => tok) ++ subScan v rest := by
  have hlen := matchAt_length hm
  have hlpos : 0 < l.length := by omega
  obtain ⟨m, hml⟩ : ∃ m, l.length = m + 1 := ⟨l.length - 1, by omega⟩
  rw [subScan, hml]
  simp only [subScanF, hm]
  rw [subScanF_fuel v m rest (by omega)]

/-- The one-step equation of the scan at a non-match. -/
theorem subScan_eq_none {v : Vault} {c : Char} {cs : List Char}
    (hm : matchAt (c :: cs) = none) :
    subScan v (c :: cs) = c :: subScan v cs := by
  rw [subScan]
  simp only [List.length_cons, subScanF, hm]
  rw [subScanF_fuel v cs.length cs le_rfl]

theorem subScan_nil (v : Vault) : subScan v [] = [] := rfl

/-- `Vault.rehydrate_xml(xml_content)`: regex substitution of every
`VAL_[a-zA-Z0-9]+` occurrence via `restore`. -/
def Vault.rehydrate_xml (v : Vault) (xml_content : String) : String :=
  String.mk (subScan v xml_content.data)

/-! ## Persistence (`Vault.save` / `Vault.load`) and the error model -/

/-- Exception kinds relevant to the claims.  `corruptVaultError` is the
distinct typed error the specification postulates; the code of the
repository never defines or raises it. -/
inductive PyError where
  | jsonDecodeError
  | attributeError
  | corruptVaultError
deriving DecidableEq, Repr

/-- A stored file, at the granularity the claims need: a serialized XML
document, a vault JSON dump (`json.dumps` of the entries dict, injective in
the entries by construction), or unparsable raw bytes. -/
inductive FileVal where
  | xmlFile (s : String)
  | vaultJson (es : List (String × VaultEntry))
  | raw (s : String)
deriving DecidableEq

/-- The file system: a dict from path to file contents. -/
def FS : Type := List (String × FileVal)

/-- `Vault.save()`: write `json.dumps` of the entries to `self.path`
(creating parents, overwriting wholesale), return the path. -/
def Vault.save (v : Vault) (fs : FS) : String × FS :=
  (v.path, dictSet fs v.path (FileVal.vaultJson v.entries))

/-- `Vault.load()`: no-op when the file does not exist; when it exists,
`json.loads` either yields the entries mapping (replacing the in-memory
state) or raises its generic decode error — there is no `CorruptVaultError`
anywhere in the code. -/
def Vault.load (v : Vault) (fs : FS) : Except PyError Vault :=
  match dictGet fs v.path with
  | none => Except.ok v
  | some (FileVal.vaultJson es) => Except.ok ⟨v.path, es⟩
  | some (FileVal.xmlFile _) => Except.error PyError.jsonDecodeError
  | some (FileVal.raw _) => Except.error PyError.jsonDecodeError

/-! ## Document model -/

/-- An XML element: optional namespace, local tag name, attribute dict,
text content (`""` for `None`), ordered children.  Comments and processing
instructions (the non-string-tag nodes the code skips) are outside the
model. -/
inductive XmlNode where
  | mk (ns : Option String) (tag : String) (attrs : List (String × String))
       (text : String) (children : List XmlNode)

mutual

def decEqXmlNode : (a b : XmlNode) → Decidable (a = b)
  | XmlNode.mk n1 t1 a1 x1 c1, XmlNode.mk n2 t2 a2 x2 c2 =>
    if h1 : n1 = n2 then
      if h2 : t1 = t2 then
        if h3 : a1 = a2 then
          if h4 : x1 = x2 then
            match decEqXmlList c1 c2 with
            | isTrue h5 => isTrue (by rw [h1, h2, h3, h4, h5])
            | isFalse h5 => isFalse (by intro he; injection he; contradiction)
          else isFalse (by intro he; injection he; contradiction)
        else isFalse (by intro he; injection he; contradiction)
      else isFalse (by intro he; injection he; contradiction)
    else isFalse (by intro he; injection he; contradiction)

def decEqXmlList : (a b : List XmlNode) → Decidable (a = b)
  | [], [] => isTrue rfl
  | [], _ :: _ => isFalse (by intro he; injection he)
  | _ :: _, [] => isFalse (by intro he; injection he)
  | a :: as, b :: bs =>
    match decEqXmlNode a b with
    | isTrue h1 =>
      match decEqXmlList as bs with
      | isTrue h2 => isTrue (by rw [h1, h2])
      | isFalse h2 => isFalse (by intro he; injection he; contradiction)
    | isFalse h1 => isFalse (by intro he; injection he; contradiction)

end

instance : DecidableEq XmlNode := decEqXmlNode

def XmlNode.ns : XmlNode → Option String
  | XmlNode.mk n _ _ _ _ => n

def XmlNode.tag : XmlNode → String
  | XmlNode.mk _ t _ _ _ => t

def XmlNode.attrs : XmlNode → List (String × String)
  | XmlNode.mk _ _ a _ _ => a

def XmlNode.text : XmlNode → String
  | XmlNode.mk _ _ _ t _ => t

def XmlNode.children : XmlNode → List XmlNode
  | XmlNode.mk _ _ _ _ c => c

mutual

/-- `etree.tostring`: serialization used by `shuffle_siblings` and for the
sanitized output (a namespace is rendered as a `ns:tag` qualified name). -/
def serNode : XmlNode → String
  | XmlNode.mk ns tag attrs text children =>
      let q := match ns with
        | some u => u ++ ":" ++ tag
        | none => tag
      "<" ++ q ++
        attrs.foldl (fun acc kv => acc ++ " " ++ kv.1 ++ "=\"" ++ kv.2 ++ "\"") "" ++
        ">" ++ text ++ serList children ++ "</" ++ q ++ ">"

def serList : List XmlNode → String
  | [] => ""
  | c :: cs => serNode c ++ serList cs

end

/-- Pre-order document traversal, the order of `root.iter()`. -/
def preorder : XmlNode → List XmlNode
  | XmlNode.mk ns tag attrs text children =>
      XmlNode.mk ns tag attrs text children :: preorderList children
where
  preorderList : List XmlNode → List XmlNode
  | [] => []
  | c :: cs => preorder c ++ preorderList cs

/-! ## Policy engine (src/policy_engine.py) -/

inductive Action where
  | preserve
  | redact
  | mask_value
  | shuffle_siblings
deriving DecidableEq, Repr

/-- `Rule` dataclass (`parameters` is an optional dict such as
`{"child_tag": ctag}`). -/
structure Rule where
  tag_pattern : String
  action : Action
  parameters : Option (List (String × String)) := none
deriving DecidableEq, Repr

/-- `Policy` dataclass. -/
structure Policy where
  version : String := "1.0"
  global_masking : Bool := false
  rules : List Rule := []
  created_at : Option String := none

/-- The fixed sensitive keyword set `_SENSITIVE_KEYWORDS`. -/
def SENSITIVE_KEYWORDS : List String :=
  ["pressure", "temperature", "velocity", "coord", "val", "force", "stress"]

def beginsWith : List Char → List Char → Bool
  | [], _ => true
  | _ :: _, [] => false
  | p :: ps, c :: cs => p = c && beginsWith ps cs

/-- Python substring containment `pat in s`. -/
def hasSub (pat : List Char) : List Char → Bool
  | [] => pat.isEmpty
  | c :: cs => beginsWith pat (c :: cs) || hasSub pat cs

/-- ASCII `str.lower()`. -/
def asciiLower (s : String) : String :=
  String.mk (s.data.map (fun c =>
    if 'A' ≤ c ∧ c ≤ 'Z' then Char.ofNat (c.toNat + 32) else c))

/-- Check 1 of the detector: the lower-cased tag contains a sensitive
keyword. -/
def kwMatch (tag : String) : Bool :=
  SENSITIVE_KEYWORDS.any (fun kw => hasSub kw.data (asciiLower tag).data)

/-- Check 2 of the detector: the stripped text fully matches the anchored
numeric pattern. -/
def numericText (text : String) : Bool :=
  let t := pyStrip text
  t ≠ "" && numFullMatch t.data

/-- The `child_tags` counting dict of the detector loop (tag → count,
first-occurrence order). -/
def bumpCount : List (String × Nat) → String → List (String × Nat)
  | [], k => [(k, 1)]
  | (k', c) :: t, k =>
      if k' = k then (k', c + 1) :: t else (k', c) :: bumpCount t k

def countTags (cs : List XmlNode) : List (String × Nat) :=
  cs.foldl (fun acc c => bumpCount acc c.tag) []

/-- One step of check 3's inner loop: for the child-tag/count pair `kv`
under parent `tag`, emit a `shuffle_siblings` rule when the count is at
least 2 and the `"parent/child"` dedup key is unseen. -/
def shuffleStep (tag : String) (st' : List Rule × List String)
    (kv : String × Nat) : List Rule × List String :=
  let key := tag ++ "/" ++ kv.1
  if 2 ≤ kv.2 ∧ key ∉ st'.2 then
    (st'.1 ++ [⟨tag, Action.shuffle_siblings, some [("child_tag", kv.1)]⟩],
     st'.2 ++ [key])
  else st'

/-- The body of the detector loop for one visited element, threading the
`(rules, seen_tags)` state.  Checks 1 and 2 `continue` (skipping the
repeated-child check); check 3 folds over the child-tag counts. -/
def visit (st : List Rule × List String) (n : XmlNode) : List Rule × List String :=
  let rules := st.1
  let seen := st.2
  let tag := n.tag
  if kwMatch tag = true ∧ tag ∉ seen then
    (rules ++ [⟨tag, Action.mask_value, none⟩], seen ++ [tag])
  else if numericText n.text = true ∧ tag ∉ seen then
    (rules ++ [⟨tag, Action.mask_value, none⟩], seen ++ [tag])
  else
    (countTags n.children).foldl (shuffleStep tag) (rules, seen)

/-- `generate_policy`: pre-order scan with the per-node `visit` step (the
XML parse of the input file is abstracted to the parsed tree, and
`datetime.now` to the `now` argument). -/
def generate_policy (doc : XmlNode) (now : String) : Policy :=
  { version := "1.0"
    global_masking := false
    rules := ((preorder doc).foldl visit ([], [])).1
    created_at := some now }

/-! ## Configuration (src/config.py)

`value_pattern` is consumed as a compiled regex; the claims all evaluate it
at its default `-?\d+\.?\d*`, so the masking predicate embeds that default
grammar (`numFullMatch`).  The remaining fields are carried verbatim;
`uuid_format` and `preserve_attributes` are (faithfully) never consulted by
the embedded pipeline code. -/

structure MaskingConfig where
  uuid_format : String := "VAL_{uuid}"
  preserve_attributes : List String := ["id", "type"]

structure ShufflingConfig where
  enabled : Bool := true
  seed : Option Nat := none
  target_tags : List String := ["element", "node", "component"]

structure PolicyEngineConfig where
  masking : MaskingConfig := {}
  shuffling : ShufflingConfig := {}
  vault_path : String := "./session_vault.json"
  strict_mode : Bool := false

/-! ## Stage A — masking (`mask_values`) -/

/-- The masking condition of `mask_values`: non-empty stripped text that
fully matches the numeric pattern. -/
def shouldMask (text : String) : Bool :=
  let t := pyStrip text
  t ≠ "" && numFullMatch t.data

mutual

/-- The `root.iter()` loop of `mask_values`: document order, each matching
element's text replaced by a fresh placeholder from `vault.store(text)`
(note: `text` here is the *stripped* content, exactly as in the source). -/
def maskNode (E : Entropy) : XmlNode → Vault → Nat → XmlNode × Vault × Nat
  | XmlNode.mk ns tag attrs text cs, v, k =>
      if shouldMask text then
        let r := Vault.store E v k (pyStrip text)
        let rc := maskChildren E cs r.2.1 r.2.2
        (XmlNode.mk ns tag attrs r.1 rc.1, rc.2)
      else
        let rc := maskChildren E cs v k
        (XmlNode.mk ns tag attrs text rc.1, rc.2)

def maskChildren (E : Entropy) : List XmlNode → Vault → Nat → List XmlNode × Vault × Nat
  | [], v, k => ([], v, k)
  | c :: cs, v, k =>
      let r := maskNode E c v k
      let rs := maskChildren E cs r.2.1 r.2.2
      (r.1 :: rs.1, rs.2)

end

/-- `mask_values(tree, masking_config, vault)`; the config is carried for
fidelity of the signature (only its — defaulted — value pattern matters). -/
def mask_values (E : Entropy) (_masking_config : MaskingConfig)
    (tree : XmlNode) (vault : Vault) (k : Nat) : XmlNode × Vault × Nat :=
  maskNode E tree vault k

/-! ## Stage B — shuffling (`shuffle_siblings`) -/

/-- State of a `random.Random` instance: its value stream and position. -/
structure Rng where
  stream : Nat → Nat
  k : Nat

/-- `random.Random(seed)`: with a seed the stream is the fixed seed-indexed
family `mt` (the library PRNG is a pure function of the seed); without one
it is fresh ambient entropy. -/
def mkRandom (mt : Nat → Nat → Nat) (seed : Option Nat) (entropy : Nat → Nat) : Rng :=
  match seed with
  | some s => ⟨mt s, 0⟩
  | none => ⟨entropy, 0⟩

/-- One bounded draw (`randbelow`): the next stream value reduced into
`[0, bound)`. -/
def rngDraw (r : Rng) (bound : Nat) : Nat × Rng :=
  (r.stream r.k % bound, ⟨r.stream, r.k + 1⟩)

/-- Exchange positions `i` and `j` of a list (no-op when out of range). -/
def swapL {α : Type} (l : List α) (i j : Nat) : List α :=
  match l[i]?, l[j]? with
  | some a, some b => (l.set i b).set j a
  | _, _ => l

/-- The Fisher–Yates loop of `random.shuffle`: for `i` from `len-1` down to
`1`, draw `j = randbelow(i+1)` and swap positions `i` and `j`. -/
def pyShuffleGo {α : Type} : Rng → List α → Nat → List α × Rng
  | r, l, 0 => (l, r)
  | r, l, m + 1 =>
      let d := rngDraw r (m + 2)
      pyShuffleGo d.2 (swapL l (m + 1) d.1) m

/-- `rng.shuffle(children)` on a copy of the child list (the code then
re-attaches the children in the shuffled order). -/
def pyShuffle {α : Type} (r : Rng) (l : List α) : List α × Rng :=
  pyShuffleGo r l (l.length - 1)

theorem swap_head {α : Type} :
    ∀ (t : List α) (m : Nat) (x : α) (h : m < t.length),
      (t.get ⟨m, h⟩ :: t.set m x).Perm (x :: t) := by
  intro t
  induction t with
  | nil => intro m x h; simp at h
  | cons y ys ih =>
    intro m x h
    match m with
    | 0 => simpa using List.Perm.swap x y ys
    | Nat.succ m' =>
      have hm : m' < ys.length := by simpa using h
      have step1 : (ys.get ⟨m', hm⟩ :: y :: ys.set m' x).Perm
          (y :: ys.get ⟨m', hm⟩ :: ys.set m' x) := List.Perm.swap _ _ _
      have step2 : (y :: ys.get ⟨m', hm⟩ :: ys.set m' x).Perm (y :: x :: ys) :=
        List.Perm.cons _ (ih m' x hm)
      have step3 : (y :: x :: ys).Perm (x :: y :: ys) := List.Perm.swap _ _ _
      simpa using (step1.trans step2).trans step3

theorem swapL_perm {α : Type} :
    ∀ (l : List α) (i j : Nat), (swapL l i j).Perm l := by
  intro l
  induction l with
  | nil => intro i j; simp [swapL]
  | cons x t ih =>
    intro i j
    match i, j with
    | 0, 0 => simp [swapL]
    | 0, Nat.succ m =>
      cases hm : t[m]? with
      | none => simp [swapL, hm]
      | some b =>
        obtain ⟨hml, hb⟩ := List.getElem?_eq_some_iff.mp hm
        have he : swapL (x :: t) 0 (m + 1) = b :: t.set m x := by
          simp [swapL, hm]
        rw [he]
        have hget : t.get ⟨m, hml⟩ = b := by simpa [List.get_eq_getElem] using hb
        rw [← hget]
        exact swap_head t m x hml
    | Nat.succ n, 0 =>
      cases hn : t[n]? with
      | none => simp [swapL, hn]
      | some a =>
        obtain ⟨hnl, ha⟩ := List.getElem?_eq_some_iff.mp hn
        have he : swapL (x :: t) (n + 1) 0 = a :: t.set n x := by
          simp [swapL, hn]
        rw [he]
        have hget : t.get ⟨n, hnl⟩ = a := by simpa [List.get_eq_getElem] using ha
        rw [← hget]
        exact swap_head t n x hnl
    | Nat.succ n, Nat.succ m =>
      cases hn : t[n]? with
      | none => simp [swapL, hn]
      | some a =>
        cases hm : t[m]? with
        | none => simp [swapL, hn, hm]
        | some b =>
          have he : swapL (x :: t) (n + 1) (m + 1) = x :: ((t.set n b).set m a) := by
            simp [swapL, hn, hm]
          rw [he]
          refine List.Perm.cons _ ?_
          have h2 : swapL t n m = (t.set n b).set m a := by simp [swapL, hn, hm]
          have h3 := ih n m
          rwa [h2] at h3

theorem pyShuffleGo_perm {α : Type} :
    ∀ (m : Nat) (r : Rng) (l : List α), (pyShuffleGo r l m).1.Perm l := by
  intro m
  induction m with
  | zero => intro r l; simp [pyShuffleGo]
  | succ n ih =>
    intro r l
    simp only [pyShuffleGo]
    exact List.Perm.trans (ih _ _) (swapL_perm l (n + 1) _)

/-- The in-place reorder of `random.shuffle` is a permutation of the child
list: same elements, only positions change. -/
theorem pyShuffle_perm {α : Type} (r : Rng) (l : List α) :
    (pyShuffle r l).1.Perm l :=
  pyShuffleGo_perm (l.length - 1) r l

theorem perm_sizeOf {α : Type} [SizeOf α] {l l' : List α}
    (h : List.Perm l l') : sizeOf l = sizeOf l' := by
  induction h with
  | nil => rfl
  | cons a _ ih => simp [ih]
  | swap a b t => simp; omega
  | trans _ _ ih1 ih2 => omega

mutual

/-- The `root.iter()` loop of `shuffle_siblings`: an eligible element with
at least two children has them reordered; iteration then continues into the
(re-attached, hence reordered) children. -/
def shuffleNode (P : String → Bool) : Rng → XmlNode → XmlNode × Rng
  | r, XmlNode.mk ns tag attrs text cs =>
      if P tag && decide (2 ≤ cs.length) then
        let sh := pyShuffle r cs
        let rc := shuffleChildren P sh.2 sh.1
        (XmlNode.mk ns tag attrs text rc.1, rc.2)
      else
        let rc := shuffleChildren P r cs
        (XmlNode.mk ns tag attrs text rc.1, rc.2)
termination_by _ n => sizeOf n
decreasing_by
  all_goals
    (have hp : sizeOf (pyShuffle r cs).1 = sizeOf cs :=
       perm_sizeOf (pyShuffle_perm r cs)
     simp only [XmlNode.mk.sizeOf_spec]
     omega)

def shuffleChildren (P : String → Bool) : Rng → List XmlNode → List XmlNode × Rng
  | r, [] => ([], r)
  | r, c :: cs =>
      let rc := shuffleNode P r c
      let rcs := shuffleChildren P rc.2 cs
      (rc.1 :: rcs.1, rcs.2)
termination_by _ l => sizeOf l
decreasing_by
  all_goals
    (simp only [List.cons.sizeOf_spec]
     omega)

end

/-- Eligibility of a parent tag: from the shuffle rules when a non-empty
rule list was passed (`if rules:`), else from `target_tags`; the rules'
`child_tag` parameters are not consulted. -/
def shuffleEligible (cfg : ShufflingConfig) (rules : Option (List Rule)) (tag : String) : Bool :=
  match rules with
  | some rs =>
      if rs.isEmpty then cfg.target_tags.contains tag
      else ((rs.filter (fun r => r.action = Action.shuffle_siblings)).map
              (fun r => r.tag_pattern)).contains tag
  | none => cfg.target_tags.contains tag

/-- `shuffle_siblings(tree, shuffling_config, rules)`.  Note the return
type: the function serializes the tree and returns a *string* (also when
shuffling is disabled). -/
def shuffle_siblings (mt : Nat → Nat → Nat) (entropy : Nat → Nat)
    (cfg : ShufflingConfig) (rules : Option (List Rule)) (tree : XmlNode) : String :=
  if !cfg.enabled then serNode tree
  else
    let rng := mkRandom mt cfg.seed entropy
    serNode (shuffleNode (shuffleEligible cfg rules) rng tree).1

/-! ## Stage C — tag shadowing -/

def DEFAULT_TAG_MAP : List (String × String) :=
  [("pressure", "metric_alpha"), ("temperature", "thermal_beta"),
   ("velocity", "kinematic_gamma"), ("coordinates", "spatial_delta")]

mutual

/-- `_apply_tag_shadowing`: rename every element whose local name is a key
of the tag map, preserving a namespace when present. -/
def shadowNode (m : List (String × String)) : XmlNode → XmlNode
  | XmlNode.mk ns tag attrs text cs =>
      let tag' := match dictGet m tag with
        | some newTag => newTag
        | none => tag
      XmlNode.mk ns tag' attrs text (shadowList m cs)

def shadowList (m : List (String × String)) : List XmlNode → List XmlNode
  | [] => []
  | c :: cs => shadowNode m c :: shadowList m cs

end

/-! ## The pipeline (`apply_gatekeeper`) -/

/-- The dynamically-typed intermediate the Python pipeline threads between
stages: stage B hands back a serialized string, stage C needs a tree. -/
inductive TreeOrStr where
  | tree (t : XmlNode)
  | str (s : String)

/-- Stage A with its gate, as performed inside `apply_gatekeeper` on the
fresh session vault `Vault(config.vault_path)` (constructed empty; `load`
is never called). -/
def gatekeeperMask (E : Entropy) (policy : Policy) (config : PolicyEngineConfig)
    (doc : XmlNode) (k : Nat) : XmlNode × Vault × Nat :=
  let vault : Vault := ⟨config.vault_path, []⟩
  let mask_rules := policy.rules.filter (fun r => r.action = Action.mask_value)
  if policy.global_masking || !mask_rules.isEmpty then
    mask_values E config.masking doc vault k
  else (doc, vault, k)

/-- `apply_gatekeeper(xml_path, policy, config, ...)`: stage A (gated),
stage B (gated — note its string result is stored back into `tree`),
stage C (`_apply_tag_shadowing(tree, ...)` — an `AttributeError` when
`tree` is a string, since strings have no `getroot`), then the sanitized
write and `vault.save()`.  Input parsing is abstracted to the parsed `doc`;
returns `(sanitized_path, vault_path)` plus the updated file system. -/
def apply_gatekeeper (mt : Nat → Nat → Nat) (entropy : Nat → Nat) (E : Entropy)
    (xml_path : String) (doc : XmlNode) (policy : Policy)
    (config : PolicyEngineConfig) (tag_map : Option (List (String × String)))
    (fs : FS) (k : Nat) : Except PyError (String × String × FS) :=
  let r1 := gatekeeperMask E policy config doc k
  let shuffle_rules := policy.rules.filter (fun r => r.action = Action.shuffle_siblings)
  let t2 : TreeOrStr :=
    if config.shuffling.enabled && !shuffle_rules.isEmpty then
      TreeOrStr.str (shuffle_siblings mt entropy config.shuffling (some shuffle_rules) r1.1)
    else TreeOrStr.tree r1.1
  match t2 with
  | TreeOrStr.str _ => Except.error PyError.attributeError
  | TreeOrStr.tree t =>
      let effective_map := match tag_map with
        | some m => m
        | none => DEFAULT_TAG_MAP
      let t3 := shadowNode effective_map t
      let sanitized_path := xml_path ++ "_sanitized.xml"
      let fs1 := dictSet fs sanitized_path (FileVal.xmlFile (serNode t3))
      let r2 := Vault.save r1.2.1 fs1
      Except.ok (sanitized_path, config.vault_path, r2.2)

/-! ## Dictionary lemmas -/

theorem dictGet_dictSet_self {β : Type} :
    ∀ (es : List (String × β)) (k : String) (v : β),
      dictGet (dictSet es k v) k = some v := by
  intro es k v
  induction es with
  | nil => simp [dictSet, dictGet]
  | cons kv t ih =>
    by_cases h : kv.1 = k
    · simp [dictSet, dictGet, h]
    · simpa [dictSet, dictGet, h] using ih

theorem dictGet_dictSet_ne {β : Type} :
    ∀ (es : List (String × β)) (k : String) (v : β) (p : String), p ≠ k →
      dictGet (dictSet es k v) p = dictGet es p := by
  intro es k v p hp
  have hkp : ¬ k = p := fun he => hp he.symm
  induction es with
  | nil => simp [dictSet, dictGet, hkp]
  | cons kv t ih =>
    obtain ⟨k1, v1⟩ := kv
    by_cases h : k1 = k
    · subst h
      simp [dictSet, dictGet, hkp]
    · by_cases h2 : k1 = p
      · subst h2
        simp [dictSet, dictGet, h]
      · simp [dictSet, dictGet, h, h2, ih]

theorem mem_dictSet {β : Type} :
    ∀ {es : List (String × β)} {k : String} {v : β} {pr : String × β},
      pr ∈ dictSet es k v → pr = (k, v) ∨ pr ∈ es := by
  intro es
  induction es with
  | nil => intro k v pr h; simpa [dictSet] using h
  | cons kv t ih =>
    intro k v pr h
    by_cases hk : kv.1 = k
    · simp only [dictSet, hk, if_pos rfl] at h
      rcases List.mem_cons.mp h with h1 | h2
      · exact Or.inl h1
      · exact Or.inr (List.mem_cons_of_mem _ h2)
    · simp only [dictSet, hk, if_neg hk] at h
      rcases List.mem_cons.mp h with h1 | h2
      · exact Or.inr (h1 ▸ List.mem_cons_self _ _)
      · rcases ih h2 with h3 | h4
        · exact Or.inl h3
        · exact Or.inr (List.mem_cons_of_mem _ h4)

theorem mem_dictSet_of_ne {β : Type} :
    ∀ {es : List (String × β)} {k : String} {v : β} {pr : String × β},
      pr ∈ es → pr.1 ≠ k → pr ∈ dictSet es k v := by
  intro es
  induction es with
  | nil => intro k v pr h _; simp at h
  | cons kv t ih =>
    intro k v pr h hne
    rcases List.mem_cons.mp h with h1 | h2
    · by_cases hk : kv.1 = k
      · exact absurd (h1 ▸ hk) hne
      · simp only [dictSet, if_neg hk]
        exact h1 ▸ List.mem_cons_self _ _
    · by_cases hk : kv.1 = k
      · simp only [dictSet, hk, if_pos rfl]
        exact List.mem_cons_of_mem _ h2
      · simp only [dictSet, if_neg hk]
        exact List.mem_cons_of_mem _ (ih h2 hne)

/-! ## Concrete inputs used by counterexamples and witnesses -/

/-- An entropy source whose every `uuid4().hex` draw is the same 32-char
hex string (a collision-heavy environment). -/
def entropyAllA : Entropy :=
  ⟨fun _ => "aaaaaaaaaaaaaaaaaaaaaaaaaaaaaaaa", fun _ => "t1"⟩

/-- An entropy source with pairwise distinct draws for the first draws. -/
def entropyDistinct : Entropy :=
  ⟨fun n => if n = 0 then "aaaaaaaaaaaaaaaaaaaaaaaaaaaaaaaa"
            else if n = 1 then "bbbbbbbbbbbbbbbbbbbbbbbbbbbbbbbb"
            else "cccccccccccccccccccccccccccccccc",
   fun _ => "2025-01-01T00:00:00+00:00"⟩

/-- `<root><a>1</a><a>2</a></root>`. -/
def exDocShuffle : XmlNode :=
  XmlNode.mk none "root" []  ""
    [XmlNode.mk none "a" [] "1" [], XmlNode.mk none "a" [] "2" []]

/-- A policy holding exactly one `shuffle_siblings` rule for `root`. -/
def exPolicyShuffle : Policy :=
  { rules := [⟨"root", Action.shuffle_siblings, some [("child_tag", "a")]⟩] }

/-! ## C1 — the pipeline crashes whenever the shuffling stage executes -/

/-- C1: the claim says `apply_gatekeeper` always completes with a sanitized
document, in particular on runs where the shuffling stage executed.  On the
code this is false: `shuffle_siblings` returns a serialized *string*, which
stage C (`_apply_tag_shadowing`) immediately hits with `.getroot()`, so any
run whose policy has a `shuffle_siblings` rule while shuffling is enabled
(the default) raises `AttributeError` instead of producing output.  This
theorem evaluates the pipeline at such an input. -/
theorem claim_C1_pipeline_crashes_when_shuffling_runs :
    apply_gatekeeper (fun _ _ => 0) (fun _ => 0) entropyDistinct
      "in.xml" exDocShuffle exPolicyShuffle {} none [] 0 =
    Except.error PyError.attributeError := by
  rfl

/-! ## C3 — shuffling permutes, never adds/removes/mutates children -/

/-- C3: the reorder a node's children undergo in the shuffling stage is a
permutation: the output children equal the input children as an unordered
multiset (no child added, removed, or mutated — the elements are the same
subtrees), and the stage rebuilds every node from exactly such a permuted
child list before descending. -/
theorem claim_C3_shuffle_preserves_children_multiset :
    (∀ (r : Rng) (cs : List XmlNode),
        ((pyShuffle r cs).1 : Multiset XmlNode) = (cs : Multiset XmlNode) ∧
        (pyShuffle r cs).1.Perm cs) ∧
    (∀ (P : String → Bool) (r : Rng) (n : XmlNode),
        ∃ cs₀ r', cs₀.Perm n.children ∧
          (shuffleNode P r n).1 =
            XmlNode.mk n.ns n.tag n.attrs n.text (shuffleChildren P r' cs₀).1) := by
  constructor
  · intro r cs
    exact ⟨Multiset.coe_eq_coe.mpr (pyShuffle_perm r cs), pyShuffle_perm r cs⟩
  · intro P r n
    cases n with
    | mk ns tag attrs text cs =>
      by_cases h : (P tag && decide (2 ≤ cs.length)) = true
      · exact ⟨(pyShuffle r cs).1, (pyShuffle r cs).2, pyShuffle_perm r cs,
          by simp [shuffleNode, h, XmlNode.ns, XmlNode.tag, XmlNode.attrs,
                   XmlNode.text, XmlNode.children]⟩
      · exact ⟨cs, r, List.Perm.refl cs,
          by simp [shuffleNode, h, XmlNode.ns, XmlNode.tag, XmlNode.attrs,
                   XmlNode.text, XmlNode.children]⟩

/-! ## C4 — `store` and collisions -/

/-- A vault already holding the placeholder that `entropyAllA`'s first draw
produces. -/
def exVaultC4 : Vault :=
  ⟨"p", [("VAL_aaaaaaaaaaaa", ⟨"VAL_aaaaaaaaaaaa", "old", "t0"⟩)]⟩

/-- C4 counterexample: `store` draws `uuid4().hex[:12] = "aaaaaaaaaaaa"`,
colliding with the existing key, and the existing `(placeholder, entry)`
pair is silently replaced — no new identifier is drawn. -/
theorem claim_C4_counterexample :
    ("VAL_aaaaaaaaaaaa", (⟨"VAL_aaaaaaaaaaaa", "old", "t0"⟩ : VaultEntry)) ∉
      ((Vault.store entropyAllA exVaultC4 0 "new").2.1).entries ∧
    dictGet ((Vault.store entropyAllA exVaultC4 0 "new").2.1).entries
      "VAL_aaaaaaaaaaaa" = some ⟨"VAL_aaaaaaaaaaaa", "new", "t1"⟩ := by
  decide

/-- C4 (amended): `store` draws exactly one identifier and assigns under
the resulting placeholder; every pair under any *other* key is unchanged,
but a pair under the colliding key is silently overwritten (no redraw). -/
theorem claim_C4_amended_store_overwrites_on_collision
    (E : Entropy) (v : Vault) (k : Nat) (x : String)
    (p : String) (e : VaultEntry)
    (hmem : dictGet v.entries p = some e) (hne : p ≠ ph E k) :
    dictGet ((Vault.store E v k x).2.1).entries p = some e ∧
    dictGet ((Vault.store E v k x).2.1).entries (ph E k) =
      some ⟨ph E k, x, E.times k⟩ := by
  constructor
  · have := dictGet_dictSet_ne v.entries (ph E k) ⟨ph E k, x, E.times k⟩ p hne
    simpa [Vault.store, ph] using this.trans hmem
  · simpa [Vault.store, ph] using
      dictGet_dictSet_self v.entries (ph E k) ⟨ph E k, x, E.times k⟩

/-- C4 amended witness: concrete non-colliding pair surviving a store. -/
theorem claim_C4_amended_witness :
    dictGet ((Vault.store entropyAllA ⟨"p", [("VAL_zzzzzzzzzzzz", ⟨"VAL_zzzzzzzzzzzz", "o", "t0"⟩)]⟩ 0 "x").2.1).entries
      "VAL_zzzzzzzzzzzz" = some ⟨"VAL_zzzzzzzzzzzz", "o", "t0"⟩ ∧
    dictGet ((Vault.store entropyAllA ⟨"p", [("VAL_zzzzzzzzzzzz", ⟨"VAL_zzzzzzzzzzzz", "o", "t0"⟩)]⟩ 0 "x").2.1).entries
      (ph entropyAllA 0) = some ⟨ph entropyAllA 0, "x", entropyAllA.times 0⟩ :=
  claim_C4_amended_store_overwrites_on_collision entropyAllA
    ⟨"p", [("VAL_zzzzzzzzzzzz", ⟨"VAL_zzzzzzzzzzzz", "o", "t0"⟩)]⟩ 0 "x"
    "VAL_zzzzzzzzzzzz" ⟨"VAL_zzzzzzzzzzzz", "o", "t0"⟩ (by decide) (by decide)

/-! ## C5 — `load` on a missing vs. corrupt vault file -/

def exVaultC5 : Vault := ⟨"vault.json", [("k", ⟨"k", "v", "t"⟩)]⟩

def exFsC5 : FS := [("vault.json", FileVal.raw "definitely-not-json")]

/-- C5 counterexample: on an existing but unparsable vault file, `load`
raises the *generic* JSON decode error — the code defines no
`CorruptVaultError` type and raises nothing of that kind. -/
theorem claim_C5_counterexample :
    Vault.load exVaultC5 exFsC5 = Except.error PyError.jsonDecodeError ∧
    PyError.jsonDecodeError ≠ PyError.corruptVaultError :=
  ⟨rfl, by decide⟩

/-- C5 (amended): when the storage location does not exist `load` is a
no-op (the vault, entries included, is returned unchanged, no error); when
the file exists but cannot be parsed `load` fails with the *generic* JSON
parse error, not with a distinct typed `CorruptVaultError` (no such type
exists in the code). -/
theorem claim_C5_amended_load_behaviour (v : Vault) (fs : FS) :
    (dictGet fs v.path = none → Vault.load v fs = Except.ok v) ∧
    (∀ s, dictGet fs v.path = some (FileVal.raw s) →
       Vault.load v fs = Except.error PyError.jsonDecodeError ∧
       Vault.load v fs ≠ Except.error PyError.corruptVaultError) := by
  constructor
  · intro h
    simp [Vault.load, h]
  · intro s h
    constructor
    · simp [Vault.load, h]
    · simp [Vault.load, h]

/-- C5 amended witness. -/
theorem claim_C5_amended_witness :
    Vault.load exVaultC5 [] = Except.ok exVaultC5 ∧
    Vault.load exVaultC5 exFsC5 = Except.error PyError.jsonDecodeError :=
  ⟨(claim_C5_amended_load_behaviour exVaultC5 []).1 (by decide),
   ((claim_C5_amended_load_behaviour exVaultC5 exFsC5).2
     "definitely-not-json" (by decide)).1⟩

/-! ## C8 — seeded shuffling is deterministic -/

/-- C8: with a present (non-absent) seed, the shuffling stage is a function
of the seed family, configuration, rules and input tree only: two runs
under arbitrary, different ambient entropy produce byte-identical
serialized output. -/
theorem claim_C8_seeded_shuffle_deterministic
    (mt : Nat → Nat → Nat) (e₁ e₂ : Nat → Nat) (enabled : Bool) (s : Nat)
    (tags : List String) (rules : Option (List Rule)) (t : XmlNode) :
    shuffle_siblings mt e₁ ⟨enabled, some s, tags⟩ rules t =
    shuffle_siblings mt e₂ ⟨enabled, some s, tags⟩ rules t := by
  simp [shuffle_siblings, mkRandom]

/-! ## C9 — placeholder shape -/

/-- A masking configuration with a non-default placeholder template. -/
def cfgCustomTemplate : MaskingConfig :=
  { uuid_format := "X_\x7bid\x7d" }

/-- `<pressure>42</pressure>`. -/
def exDocC9 : XmlNode := XmlNode.mk none "pressure" [] "42" []

/-- C9 counterexample: masking under a configuration whose `uuid_format`
is `"X_{id}"` still produces `"VAL_aaaaaaaaaaaa"` — the configured template
is ignored — and that placeholder does not embed any identifier of 16 or
more hex characters: its identifier part has 12 characters (48 bits). -/
theorem claim_C9_counterexample :
    ((mask_values entropyAllA cfgCustomTemplate exDocC9 ⟨"p", []⟩ 0).1).text =
      "VAL_aaaaaaaaaaaa" ∧
    beginsWith "X_".data "VAL_aaaaaaaaaaaa".data = false ∧
    ¬ (∃ id : String, "VAL_aaaaaaaaaaaa" = "VAL_" ++ id ∧ 16 ≤ id.length) := by
  refine ⟨by decide, by decide, ?_⟩
  rintro ⟨id, h1, h2⟩
  have hd : "VAL_aaaaaaaaaaaa".data = "VAL_".data ++ id.data := by
    have := congrArg String.data h1
    rw [this]
    exact String.data_append "VAL_" id
  have hdd : "VAL_".data ++ "aaaaaaaaaaaa".data = "VAL_".data ++ id.data := by
    rw [← hd]; decide
  have hid : id.data = "aaaaaaaaaaaa".data :=
    (List.append_cancel_left hdd).symm
  have hlen : id.length = 12 := by
    have h3 : id.length = id.data.length := rfl
    rw [h3, hid]; decide
  omega

/-- C9 (amended): every placeholder produced by `store` (hence by Stage A)
is the fixed template `"VAL_"` followed by the first 12 characters of the
`uuid4().hex` draw — 48 bits of entropy, not 64 — and Stage A ignores the
configuration's `uuid_format` entirely (two configurations differing in
it mask identically). -/
theorem claim_C9_amended_placeholder_shape
    (E : Entropy) (k : Nat) (v : Vault) (x : String) :
    (Vault.store E v k x).1 = "VAL_" ++ String.mk ((E.uuids k).data.take 12) ∧
    (String.mk ((E.uuids k).data.take 12)).length ≤ 12 ∧
    (∀ (c₁ c₂ : MaskingConfig) (t : XmlNode) (v' : Vault) (k' : Nat),
        mask_values E c₁ t v' k' = mask_values E c₂ t v' k') := by
  refine ⟨rfl, ?_, fun _ _ _ _ _ => rfl⟩
  have h3 : (String.mk ((E.uuids k).data.take 12)).length =
      ((E.uuids k).data.take 12).length := rfl
  rw [h3]
  exact List.length_take_le 12 (E.uuids k).data

/-! ## C7 — the repeated-child check is not independent of checks 1–2 -/

theorem str_append_cancel {a b c : String} (h : a ++ b = a ++ c) : b = c := by
  have hd : a.data ++ b.data = a.data ++ c.data := by
    have h1 := congrArg String.data h
    rw [String.data_append, String.data_append] at h1
    exact h1
  have h2 := List.append_cancel_left hd
  cases b; cases c
  exact congrArg String.mk h2

theorem shuffleStep_pos {tag : String} {st : List Rule × List String}
    {kv : String × Nat} (h : 2 ≤ kv.2 ∧ (tag ++ "/" ++ kv.1) ∉ st.2) :
    shuffleStep tag st kv =
      (st.1 ++ [⟨tag, Action.shuffle_siblings, some [("child_tag", kv.1)]⟩],
       st.2 ++ [tag ++ "/" ++ kv.1]) := by
  simp only [shuffleStep]
  rw [if_pos h]

theorem shuffleStep_neg {tag : String} {st : List Rule × List String}
    {kv : String × Nat} (h : ¬(2 ≤ kv.2 ∧ (tag ++ "/" ++ kv.1) ∉ st.2)) :
    shuffleStep tag st kv = st := by
  simp only [shuffleStep]
  rw [if_neg h]

theorem shuffleFold_rules_mono (tag : String) :
    ∀ (l : List (String × Nat)) (st : List Rule × List String),
      ∃ suf, (l.foldl (shuffleStep tag) st).1 = st.1 ++ suf := by
  intro l
  induction l with
  | nil => intro st; exact ⟨[], by simp⟩
  | cons kv t ih =>
    intro st
    simp only [List.foldl_cons]
    obtain ⟨suf, hsuf⟩ := ih (shuffleStep tag st kv)
    by_cases h : 2 ≤ kv.2 ∧ (tag ++ "/" ++ kv.1) ∉ st.2
    · refine ⟨⟨tag, Action.shuffle_siblings, some [("child_tag", kv.1)]⟩ :: suf, ?_⟩
      rw [hsuf, shuffleStep_pos h]
      simp
    · refine ⟨suf, ?_⟩
      rw [hsuf, shuffleStep_neg h]

theorem mem_keys_bumpCount :
    ∀ (l : List (String × Nat)) (k x : String),
      x ∈ (bumpCount l k).map Prod.fst ↔ x ∈ l.map Prod.fst ∨ x = k := by
  intro l
  induction l with
  | nil => intro k x; simp [bumpCount]
  | cons kv t ih =>
    intro k x
    obtain ⟨k1, c1⟩ := kv
    by_cases h : k1 = k
    · subst h
      simp [bumpCount]
      tauto
    · simp [bumpCount, h, ih]
      tauto

theorem nodup_keys_bumpCount :
    ∀ (l : List (String × Nat)) (k : String),
      (l.map Prod.fst).Nodup → ((bumpCount l k).map Prod.fst).Nodup := by
  intro l
  induction l with
  | nil => intro k _; simp [bumpCount]
  | cons kv t ih =>
    intro k h
    obtain ⟨k1, c1⟩ := kv
    simp only [List.map_cons, List.nodup_cons] at h
    by_cases hk : k1 = k
    · subst hk
      simpa [bumpCount, List.nodup_cons] using h
    · simp only [bumpCount, if_neg hk, List.map_cons, List.nodup_cons]
      refine ⟨?_, ih k h.2⟩
      intro hmem
      rcases (mem_keys_bumpCount t k k1).mp hmem with h1 | h2
      · exact h.1 h1
      · exact hk h2

theorem nodup_keys_countTags (cs : List XmlNode) :
    ((countTags cs).map Prod.fst).Nodup := by
  have hgen : ∀ (l : List XmlNode) (acc : List (String × Nat)),
      (acc.map Prod.fst).Nodup →
      ((l.foldl (fun a c => bumpCount a c.tag) acc).map Prod.fst).Nodup := by
    intro l
    induction l with
    | nil => intro acc h; simpa using h
    | cons c t ih =>
      intro acc h
      simp only [List.foldl_cons]
      exact ih _ (nodup_keys_bumpCount acc c.tag h)
  simpa [countTags] using hgen cs [] (by simp)

theorem shuffleFold_mem (tag : String) :
    ∀ (l : List (String × Nat)) (st : List Rule × List String)
      (ctag : String) (cnt : Nat),
      (l.map Prod.fst).Nodup → (ctag, cnt) ∈ l → 2 ≤ cnt →
      (tag ++ "/" ++ ctag) ∉ st.2 →
      (⟨tag, Action.shuffle_siblings, some [("child_tag", ctag)]⟩ : Rule) ∈
        (l.foldl (shuffleStep tag) st).1 := by
  intro l
  induction l with
  | nil => intro st ctag cnt _ hmem; simp at hmem
  | cons kv t ih =>
    intro st ctag cnt hnodup hmem hcnt hseen
    simp only [List.foldl_cons]
    rcases List.mem_cons.mp hmem with heq | htl
    · have h1 : kv.1 = ctag := by rw [← heq]
      have h2 : kv.2 = cnt := by rw [← heq]
      have hcond : 2 ≤ kv.2 ∧ (tag ++ "/" ++ kv.1) ∉ st.2 := by
        rw [h1, h2]
        exact ⟨hcnt, hseen⟩
      obtain ⟨suf, hsuf⟩ := shuffleFold_rules_mono tag t (shuffleStep tag st kv)
      rw [hsuf, shuffleStep_pos hcond, h1]
      simp
    · have hk1 : kv.1 ≠ ctag := by
        simp only [List.map_cons, List.nodup_cons] at hnodup
        intro he
        exact hnodup.1 (he ▸ List.mem_map_of_mem Prod.fst htl)
      have hkeyne : (tag ++ "/" ++ kv.1) ≠ (tag ++ "/" ++ ctag) := by
        intro he
        exact hk1 (str_append_cancel he)
      have hnodup' : (t.map Prod.fst).Nodup := by
        simp only [List.map_cons, List.nodup_cons] at hnodup
        exact hnodup.2
      have hseen' : (tag ++ "/" ++ ctag) ∉ (shuffleStep tag st kv).2 := by
        by_cases h : 2 ≤ kv.2 ∧ (tag ++ "/" ++ kv.1) ∉ st.2
        · rw [shuffleStep_pos h]
          intro hmem2
          rcases List.mem_append.mp hmem2 with ha | hb
          · exact hseen ha
          · have hb' : tag ++ "/" ++ ctag = tag ++ "/" ++ kv.1 := by
              simpa using hb
            exact hkeyne hb'.symm
        · rw [shuffleStep_neg h]
          exact hseen
      exact ih _ ctag cnt hnodup' htl hcnt hseen'

/-- `<pressure><a>x</a><a>y</a></pressure>`: a node whose tag triggers
check 1 and whose children repeat the tag `a`. -/
def exDocC7 : XmlNode :=
  XmlNode.mk none "pressure" [] ""
    [XmlNode.mk none "a" [] "x" [], XmlNode.mk none "a" [] "y" []]

/-- C7 counterexample: on `<pressure><a/><a/></pressure>` the detector
emits only the `mask_value` rule from check 1 — the `continue` skips the
repeated-child check for that node, so the `shuffle_siblings` rule the
claim demands (parent `pressure`, child `a`, count 2) is not emitted. -/
theorem claim_C7_counterexample :
    (generate_policy exDocC7 "t").rules =
      [⟨"pressure", Action.mask_value, none⟩] ∧
    (⟨"pressure", Action.shuffle_siblings, some [("child_tag", "a")]⟩ : Rule) ∉
      (generate_policy exDocC7 "t").rules := by
  constructor
  · rfl
  · decide

/-- C7 (amended): the three detector checks are first-match-wins per node.
When check 1 fires on a visited node (sensitive keyword, unseen tag) the
step emits exactly the `mask_value` rule and skips the repeated-child
check; the same holds when check 2 fires; only when neither fires does the
step emit a `shuffle_siblings` rule for every child tag occurring at least
twice whose `"parent/child"` key is unseen. -/
theorem claim_C7_amended_check3_not_independent :
    (∀ (rules : List Rule) (seen : List String) (n : XmlNode),
        kwMatch n.tag = true → n.tag ∉ seen →
        visit (rules, seen) n =
          (rules ++ [⟨n.tag, Action.mask_value, none⟩], seen ++ [n.tag])) ∧
    (∀ (rules : List Rule) (seen : List String) (n : XmlNode),
        ¬(kwMatch n.tag = true ∧ n.tag ∉ seen) →
        numericText n.text = true → n.tag ∉ seen →
        visit (rules, seen) n =
          (rules ++ [⟨n.tag, Action.mask_value, none⟩], seen ++ [n.tag])) ∧
    (∀ (rules : List Rule) (seen : List String) (n : XmlNode)
        (ctag : String) (cnt : Nat),
        ¬(kwMatch n.tag = true ∧ n.tag ∉ seen) →
        ¬(numericText n.text = true ∧ n.tag ∉ seen) →
        (ctag, cnt) ∈ countTags n.children → 2 ≤ cnt →
        (n.tag ++ "/" ++ ctag) ∉ seen →
        (⟨n.tag, Action.shuffle_siblings, some [("child_tag", ctag)]⟩ : Rule) ∈
          (visit (rules, seen) n).1) := by
  refine ⟨?_, ?_, ?_⟩
  · intro rules seen n h1 h2
    simp only [visit]
    rw [if_pos ⟨h1, h2⟩]
  · intro rules seen n h1 h2 h3
    simp only [visit]
    rw [if_neg h1, if_pos ⟨h2, h3⟩]
  · intro rules seen n ctag cnt h1 h2 hmem hcnt hseen
    have hv : visit (rules, seen) n =
        (countTags n.children).foldl (shuffleStep n.tag) (rules, seen) := by
      simp only [visit]
      rw [if_neg h1, if_neg h2]
    rw [hv]
    exact shuffleFold_mem n.tag (countTags n.children) (rules, seen) ctag cnt
      (nodup_keys_countTags n.children) hmem hcnt hseen

/-- `<root><b>1</b><b>2</b></root>` with a non-sensitive, non-numeric root. -/
def exDocC7root : XmlNode :=
  XmlNode.mk none "root" [] ""
    [XmlNode.mk none "b" [] "1" [], XmlNode.mk none "b" [] "2" []]

/-- C7 amended witness: both the skip behaviour (on `exDocC7`) and the
emission behaviour (on `exDocC7root`) at concrete inputs. -/
theorem claim_C7_amended_witness :
    visit ([], []) exDocC7 =
      ([⟨"pressure", Action.mask_value, none⟩], ["pressure"]) ∧
    (⟨"root", Action.shuffle_siblings, some [("child_tag", "b")]⟩ : Rule) ∈
      (visit ([], []) exDocC7root).1 :=
  ⟨claim_C7_amended_check3_not_independent.1 [] [] exDocC7 (by decide) (by decide),
   claim_C7_amended_check3_not_independent.2.2 [] [] exDocC7root "b" 2
     (by decide) (by decide) (by decide) (by decide) (by decide)⟩

/-! ## C2 — round-trip of `store`/`restore` and of a full masking run -/

mutual

/-- Witness checker for the pipeline round-trip property: at every node
whose text Stage A masks, rehydrating the sanitized node's text through the
produced vault yields exactly the stripped original literal. -/
def roundTripOkNode (v : Vault) : XmlNode → XmlNode → Bool
  | XmlNode.mk _ _ _ t cs, XmlNode.mk _ _ _ t' cs' =>
      (if shouldMask t then Vault.rehydrate_value v t' == pyStrip t else true) &&
      roundTripOkList v cs cs'

def roundTripOkList (v : Vault) : List XmlNode → List XmlNode → Bool
  | [], [] => true
  | a :: as, b :: bs => roundTripOkNode v a b && roundTripOkList v as bs
  | _, _ => false

end

/-- All placeholders drawable below `K` are pairwise distinct (what fresh
uuid4 randomness delivers except with negligible probability). -/
abbrev DistinctBelow (E : Entropy) (K : Nat) : Prop :=
  ∀ i, i < K → ∀ j, j < K → ph E i = ph E j → i = j

/-- Every key of the vault is a placeholder drawn before instant `k`. -/
def KeysFrom (E : Entropy) (v : Vault) (k : Nat) : Prop :=
  ∀ p e, dictGet v.entries p = some e → ∃ j, j < k ∧ p = ph E j

theorem store_fst (E : Entropy) (v : Vault) (k : Nat) (x : String) :
    (Vault.store E v k x).1 = ph E k := rfl

theorem store_entries (E : Entropy) (v : Vault) (k : Nat) (x : String) :
    (Vault.store E v k x).2.1.entries =
      dictSet v.entries (ph E k) ⟨ph E k, x, E.times k⟩ := rfl

theorem keysFrom_store {E : Entropy} {v : Vault} {k : Nat} (x : String)
    (h : KeysFrom E v k) : KeysFrom E (Vault.store E v k x).2.1 (k + 1) := by
  intro p e hp
  rw [store_entries] at hp
  by_cases hpk : p = ph E k
  · exact ⟨k, Nat.lt_succ_self k, hpk⟩
  · rw [dictGet_dictSet_ne _ _ _ _ hpk] at hp
    obtain ⟨j, hj, hpj⟩ := h p e hp
    exact ⟨j, Nat.lt_succ_of_lt hj, hpj⟩

theorem maskNode_eq_pos {E : Entropy} {ns : Option String} {tag : String}
    {attrs : List (String × String)} {text : String} {cs : List XmlNode}
    {v : Vault} {k : Nat} (h : shouldMask text = true) :
    maskNode E (XmlNode.mk ns tag attrs text cs) v k =
      (XmlNode.mk ns tag attrs (Vault.store E v k (pyStrip text)).1
        (maskChildren E cs (Vault.store E v k (pyStrip text)).2.1 (k + 1)).1,
       (maskChildren E cs (Vault.store E v k (pyStrip text)).2.1 (k + 1)).2) := by
  simp only [maskNode]
  rw [if_pos h]
  rfl

theorem maskNode_eq_neg {E : Entropy} {ns : Option String} {tag : String}
    {attrs : List (String × String)} {text : String} {cs : List XmlNode}
    {v : Vault} {k : Nat} (h : ¬ shouldMask text = true) :
    maskNode E (XmlNode.mk ns tag attrs text cs) v k =
      (XmlNode.mk ns tag attrs text (maskChildren E cs v k).1,
       (maskChildren E cs v k).2) := by
  simp only [maskNode]
  rw [if_neg h]

mutual

theorem maskNode_mono (E : Entropy) (n : XmlNode) (v : Vault) (k : Nat) :
    k ≤ (maskNode E n v k).2.2 := by
  cases n with
  | mk ns tag attrs text cs =>
    by_cases h : shouldMask text = true
    · rw [maskNode_eq_pos h]
      dsimp only
      have h1 := maskChildren_mono E cs (Vault.store E v k (pyStrip text)).2.1 (k + 1)
      omega
    · rw [maskNode_eq_neg h]
      exact maskChildren_mono E cs v k

theorem maskChildren_mono (E : Entropy) (l : List XmlNode) (v : Vault) (k : Nat) :
    k ≤ (maskChildren E l v k).2.2 := by
  cases l with
  | nil => simp [maskChildren]
  | cons c cs =>
    simp only [maskChildren]
    have h1 := maskNode_mono E c v k
    have h2 := maskChildren_mono E cs (maskNode E c v k).2.1 (maskNode E c v k).2.2
    omega

end

mutual

theorem maskNode_pres (E : Entropy) (n : XmlNode) (v : Vault) (k : Nat)
    (p : String) (e : VaultEntry) (hget : dictGet v.entries p = some e)
    (hfresh : ∀ j, k ≤ j → j < (maskNode E n v k).2.2 → ph E j ≠ p) :
    dictGet (maskNode E n v k).2.1.entries p = some e := by
  cases n with
  | mk ns tag attrs text cs =>
    by_cases h : shouldMask text = true
    · rw [maskNode_eq_pos h] at hfresh ⊢
      dsimp only at hfresh ⊢
      have hkk : k < (maskChildren E cs (Vault.store E v k (pyStrip text)).2.1 (k + 1)).2.2 := by
        have := maskChildren_mono E cs (Vault.store E v k (pyStrip text)).2.1 (k + 1)
        omega
      have hp1 : dictGet (Vault.store E v k (pyStrip text)).2.1.entries p = some e := by
        rw [store_entries]
        have hne : p ≠ ph E k := fun he => hfresh k le_rfl hkk he.symm
        rw [dictGet_dictSet_ne _ _ _ _ hne]
        exact hget
      exact maskChildren_pres E cs _ (k + 1) p e hp1
        (fun j hj1 hj2 => hfresh j (by omega) hj2)
    · rw [maskNode_eq_neg h] at hfresh ⊢
      dsimp only at hfresh ⊢
      exact maskChildren_pres E cs v k p e hget hfresh

theorem maskChildren_pres (E : Entropy) (l : List XmlNode) (v : Vault) (k : Nat)
    (p : String) (e : VaultEntry) (hget : dictGet v.entries p = some e)
    (hfresh : ∀ j, k ≤ j → j < (maskChildren E l v k).2.2 → ph E j ≠ p) :
    dictGet (maskChildren E l v k).2.1.entries p = some e := by
  cases l with
  | nil => simpa [maskChildren] using hget
  | cons c cs =>
    simp only [maskChildren] at hfresh ⊢
    have hm1 := maskNode_mono E c v k
    have hm2 := maskChildren_mono E cs (maskNode E c v k).2.1 (maskNode E c v k).2.2
    have hp1 : dictGet (maskNode E c v k).2.1.entries p = some e :=
      maskNode_pres E c v k p e hget (fun j hj1 hj2 => hfresh j hj1 (by omega))
    exact maskChildren_pres E cs _ _ p e hp1
      (fun j hj1 hj2 => hfresh j (by omega) hj2)

end

mutual

theorem maskNode_keys (E : Entropy) (n : XmlNode) (v : Vault) (k : Nat)
    (h : KeysFrom E v k) :
    KeysFrom E (maskNode E n v k).2.1 (maskNode E n v k).2.2 := by
  cases n with
  | mk ns tag attrs text cs =>
    by_cases hm : shouldMask text = true
    · rw [maskNode_eq_pos hm]
      dsimp only
      exact maskChildren_keys E cs _ (k + 1) (keysFrom_store (pyStrip text) h)
    · rw [maskNode_eq_neg hm]
      dsimp only
      exact maskChildren_keys E cs v k h

theorem maskChildren_keys (E : Entropy) (l : List XmlNode) (v : Vault) (k : Nat)
    (h : KeysFrom E v k) :
    KeysFrom E (maskChildren E l v k).2.1 (maskChildren E l v k).2.2 := by
  cases l with
  | nil => simpa [maskChildren] using h
  | cons c cs =>
    simp only [maskChildren]
    exact maskChildren_keys E cs _ _ (maskNode_keys E c v k h)

end

/-- A vault key of draw-index `j0` survives a later masking run whose draws
start at `k ≥ j0` — provided placeholders are pairwise distinct below `K`. -/
theorem maskChildren_pres_key (E : Entropy) (l : List XmlNode) (v : Vault)
    (k K : Nat) (hD : DistinctBelow E K) (hK : (maskChildren E l v k).2.2 ≤ K)
    (j0 : Nat) (hj0 : j0 < k) (hj0K : j0 < K) (e : VaultEntry)
    (hget : dictGet v.entries (ph E j0) = some e) :
    dictGet (maskChildren E l v k).2.1.entries (ph E j0) = some e := by
  refine maskChildren_pres E l v k _ e hget ?_
  intro j hj1 hj2 he
  have hjK : j < K := by omega
  have : j = j0 := hD j hjK j0 hj0K he
  omega

mutual

theorem maskNode_rt (E : Entropy) (K : Nat) (hD : DistinctBelow E K)
    (n : XmlNode) (v : Vault) (k : Nat)
    (hK : (maskNode E n v k).2.2 ≤ K) (hkeys : KeysFrom E v k)
    (v_f : Vault)
    (hpres : ∀ p e, dictGet (maskNode E n v k).2.1.entries p = some e →
                    dictGet v_f.entries p = some e) :
    roundTripOkNode v_f n (maskNode E n v k).1 = true := by
  cases n with
  | mk ns tag attrs text cs =>
    by_cases h : shouldMask text = true
    · rw [maskNode_eq_pos h] at hK hpres ⊢
      dsimp only at hK hpres ⊢
      simp only [roundTripOkNode]
      rw [if_pos h, Bool.and_eq_true]
      have hmono := maskChildren_mono E cs (Vault.store E v k (pyStrip text)).2.1 (k + 1)
      constructor
      · -- the masked node's placeholder rehydrates to the stripped literal
        have hv1 : dictGet (Vault.store E v k (pyStrip text)).2.1.entries (ph E k) =
            some ⟨ph E k, pyStrip text, E.times k⟩ := by
          rw [store_entries]
          exact dictGet_dictSet_self _ _ _
        have hv2 : dictGet (maskChildren E cs (Vault.store E v k (pyStrip text)).2.1
            (k + 1)).2.1.entries (ph E k) = some ⟨ph E k, pyStrip text, E.times k⟩ :=
          maskChildren_pres_key E cs _ (k + 1) K hD hK k (Nat.lt_succ_self k)
            (by omega) _ hv1
        have hvf := hpres _ _ hv2
        rw [store_fst]
        simp [Vault.rehydrate_value, Vault.restore, hvf]
      · exact maskChildren_rt E K hD cs _ (k + 1) hK
          (keysFrom_store (pyStrip text) hkeys) v_f hpres
    · rw [maskNode_eq_neg h] at hK hpres ⊢
      dsimp only at hK hpres ⊢
      simp only [roundTripOkNode]
      rw [if_neg h, Bool.and_eq_true]
      exact ⟨rfl, maskChildren_rt E K hD cs v k hK hkeys v_f hpres⟩

theorem maskChildren_rt (E : Entropy) (K : Nat) (hD : DistinctBelow E K)
    (l : List XmlNode) (v : Vault) (k : Nat)
    (hK : (maskChildren E l v k).2.2 ≤ K) (hkeys : KeysFrom E v k)
    (v_f : Vault)
    (hpres : ∀ p e, dictGet (maskChildren E l v k).2.1.entries p = some e →
                    dictGet v_f.entries p = some e) :
    roundTripOkList v_f l (maskChildren E l v k).1 = true := by
  cases l with
  | nil => simp [maskChildren, roundTripOkList]
  | cons c cs =>
    simp only [maskChildren] at hK hpres ⊢
    simp only [roundTripOkList]
    rw [Bool.and_eq_true]
    have hm1 := maskNode_mono E c v k
    have hm2 := maskChildren_mono E cs (maskNode E c v k).2.1 (maskNode E c v k).2.2
    constructor
    · refine maskNode_rt E K hD c v k (by omega) hkeys v_f ?_
      intro p e hp
      obtain ⟨j0, hj0, hpj⟩ := maskNode_keys E c v k hkeys p e hp
      refine hpres p e ?_
      subst hpj
      exact maskChildren_pres_key E cs _ _ K hD hK j0 hj0 (by omega) e hp
    · exact maskChildren_rt E K hD cs _ _ hK
        (maskNode_keys E c v k hkeys) v_f hpres

end

/-- C2: (1) for every string `x`, every vault state and every draw,
`restore` applied to the placeholder returned by `store(x)` yields exactly
`x`, verbatim; (2) for a full Stage A run on the pipeline's fresh session
vault, if the run's drawn placeholders are pairwise distinct (what fresh
uuid4 randomness provides), then rehydrating the sanitized document
against the produced vault recovers every masked literal exactly, at every
masked node (`roundTripOkNode`). -/
theorem claim_C2_roundtrip :
    (∀ (E : Entropy) (v : Vault) (k : Nat) (x : String),
        Vault.restore (Vault.store E v k x).2.1 (Vault.store E v k x).1 = some x) ∧
    (∀ (E : Entropy) (cfg : MaskingConfig) (path : String) (doc : XmlNode) (k : Nat),
        DistinctBelow E (mask_values E cfg doc ⟨path, []⟩ k).2.2 →
        roundTripOkNode (mask_values E cfg doc ⟨path, []⟩ k).2.1 doc
          (mask_values E cfg doc ⟨path, []⟩ k).1 = true) := by
  constructor
  · intro E v k x
    rw [store_fst]
    simp [Vault.restore, store_entries, dictGet_dictSet_self]
  · intro E cfg path doc k hD
    exact maskNode_rt E (maskNode E doc ⟨path, []⟩ k).2.2 hD doc ⟨path, []⟩ k
      le_rfl (fun p e hp => by simp [dictGet] at hp)
      (maskNode E doc ⟨path, []⟩ k).2.1 (fun p e hp => hp)

/-- `<root> 5 <b>1.5</b><b>hello</b></root>`. -/
def exDocC2 : XmlNode :=
  XmlNode.mk none "root" [] " 5 "
    [XmlNode.mk none "b" [] "1.5" [], XmlNode.mk none "b" [] "hello" []]

/-- C2 witness: both halves at concrete inputs — a concrete store/restore
round trip, and a full masking run over `exDocC2` under two distinct draws
whose produced vault round-trips every masked literal. -/
theorem claim_C2_roundtrip_witness :
    Vault.restore (Vault.store entropyDistinct exVaultC4 5 "42.5").2.1
      (Vault.store entropyDistinct exVaultC4 5 "42.5").1 = some "42.5" ∧
    roundTripOkNode (mask_values entropyDistinct {} exDocC2 ⟨"vp", []⟩ 0).2.1 exDocC2
      (mask_values entropyDistinct {} exDocC2 ⟨"vp", []⟩ 0).1 = true :=
  ⟨claim_C2_roundtrip.1 entropyDistinct exVaultC4 5 "42.5",
   claim_C2_roundtrip.2 entropyDistinct {} "vp" exDocC2 0 (by decide)⟩

/-! ## C10 — fresh session vault, wholesale overwrite, cross-run loss -/

mutual

theorem maskNode_mem (E : Entropy) (n : XmlNode) (v : Vault) (k : Nat)
    (p : String) (e : VaultEntry)
    (h : (p, e) ∈ (maskNode E n v k).2.1.entries) :
    (p, e) ∈ v.entries ∨
      ∃ j, k ≤ j ∧ j < (maskNode E n v k).2.2 ∧ p = ph E j ∧
        e.masked_value = ph E j ∧ e.created_at = E.times j := by
  cases n with
  | mk ns tag attrs text cs =>
    by_cases hm : shouldMask text = true
    · rw [maskNode_eq_pos hm] at h ⊢
      dsimp only at h ⊢
      rcases maskChildren_mem E cs _ (k + 1) p e h with h1 | ⟨j, hj1, hj2, hj3⟩
      · rw [store_entries] at h1
        rcases mem_dictSet h1 with h2 | h3
        · have hmono := maskChildren_mono E cs (Vault.store E v k (pyStrip text)).2.1 (k + 1)
          have hp : p = ph E k := congrArg Prod.fst h2
          have he : e = ⟨ph E k, pyStrip text, E.times k⟩ := congrArg Prod.snd h2
          exact Or.inr ⟨k, le_rfl, by omega, hp, by rw [he], by rw [he]⟩
        · exact Or.inl h3
      · exact Or.inr ⟨j, by omega, by omega, hj3⟩
    · rw [maskNode_eq_neg hm] at h ⊢
      dsimp only at h ⊢
      rcases maskChildren_mem E cs v k p e h with h1 | ⟨j, hj1, hj2, hj3⟩
      · exact Or.inl h1
      · exact Or.inr ⟨j, hj1, hj2, hj3⟩

theorem maskChildren_mem (E : Entropy) (l : List XmlNode) (v : Vault) (k : Nat)
    (p : String) (e : VaultEntry)
    (h : (p, e) ∈ (maskChildren E l v k).2.1.entries) :
    (p, e) ∈ v.entries ∨
      ∃ j, k ≤ j ∧ j < (maskChildren E l v k).2.2 ∧ p = ph E j ∧
        e.masked_value = ph E j ∧ e.created_at = E.times j := by
  cases l with
  | nil => exact Or.inl (by simpa [maskChildren] using h)
  | cons c cs =>
    simp only [maskChildren] at h ⊢
    have hm1 := maskNode_mono E c v k
    have hm2 := maskChildren_mono E cs (maskNode E c v k).2.1 (maskNode E c v k).2.2
    rcases maskChildren_mem E cs _ _ p e h with h1 | ⟨j, hj1, hj2, hj3⟩
    · rcases maskNode_mem E c v k p e h1 with h2 | ⟨j, hj1, hj2, hj3⟩
      · exact Or.inl h2
      · exact Or.inr ⟨j, hj1, by omega, hj3⟩
    · exact Or.inr ⟨j, by omega, by omega, hj3⟩

end

mutual

theorem maskNode_path (E : Entropy) (n : XmlNode) (v : Vault) (k : Nat) :
    (maskNode E n v k).2.1.path = v.path := by
  cases n with
  | mk ns tag attrs text cs =>
    by_cases hm : shouldMask text = true
    · rw [maskNode_eq_pos hm]
      dsimp only
      exact maskChildren_path E cs _ (k + 1)
    · rw [maskNode_eq_neg hm]
      dsimp only
      exact maskChildren_path E cs v k

theorem maskChildren_path (E : Entropy) (l : List XmlNode) (v : Vault) (k : Nat) :
    (maskChildren E l v k).2.1.path = v.path := by
  cases l with
  | nil => simp [maskChildren]
  | cons c cs =>
    simp only [maskChildren]
    rw [maskChildren_path E cs _ _, maskNode_path E c v k]

end

theorem gatekeeperMask_path (E : Entropy) (policy : Policy)
    (config : PolicyEngineConfig) (doc : XmlNode) (k : Nat) :
    (gatekeeperMask E policy config doc k).2.1.path = config.vault_path := by
  simp only [gatekeeperMask]
  by_cases hg : (policy.global_masking ||
      !(policy.rules.filter (fun r => r.action = Action.mask_value)).isEmpty) = true
  · rw [if_pos hg]
    exact maskNode_path E doc ⟨config.vault_path, []⟩ k
  · rw [if_neg hg]

/-- C10: (1) every entry of the session vault a pipeline run builds was
created by that run — its key is a placeholder of one of the run's own
draws, its timestamp is that draw's clock value (the vault starts empty at
`config.vault_path`; `load` is never called, so nothing on disk is read);
(2) on a completed run, the file at the vault path afterwards holds
exactly the dump of that run's entries, whatever the file system held
before (wholesale overwrite); (3) hence for two successive completed runs,
any entry persisted by the first run whose placeholder is not among
the second run's draws is absent from the vault file afterwards. -/
theorem claim_C10_fresh_vault_wholesale_overwrite :
    (∀ (E : Entropy) (policy : Policy) (config : PolicyEngineConfig)
       (doc : XmlNode) (k : Nat) (p : String) (e : VaultEntry),
        (p, e) ∈ (gatekeeperMask E policy config doc k).2.1.entries →
        ∃ j, k ≤ j ∧ j < (gatekeeperMask E policy config doc k).2.2 ∧
          p = ph E j ∧ e.masked_value = ph E j ∧ e.created_at = E.times j) ∧
    (∀ (mt : Nat → Nat → Nat) (ent : Nat → Nat) (E : Entropy) (path : String)
       (doc : XmlNode) (policy : Policy) (config : PolicyEngineConfig)
       (tmap : Option (List (String × String))) (fs : FS) (k : Nat)
       (sp vp : String) (fs' : FS),
        apply_gatekeeper mt ent E path doc policy config tmap fs k =
          Except.ok (sp, vp, fs') →
        vp = config.vault_path ∧
        dictGet fs' config.vault_path =
          some (FileVal.vaultJson (gatekeeperMask E policy config doc k).2.1.entries)) ∧
    (∀ (E₁ E₂ : Entropy) (policy₁ policy₂ : Policy)
       (config₁ config₂ : PolicyEngineConfig) (doc₁ doc₂ : XmlNode)
       (k₁ k₂ : Nat) (p : String) (e : VaultEntry),
        (p, e) ∈ (gatekeeperMask E₁ policy₁ config₁ doc₁ k₁).2.1.entries →
        (∀ j, k₂ ≤ j → j < (gatekeeperMask E₂ policy₂ config₂ doc₂ k₂).2.2 →
           p ≠ ph E₂ j) →
        (p, e) ∉ (gatekeeperMask E₂ policy₂ config₂ doc₂ k₂).2.1.entries) := by
  have hprov : ∀ (E : Entropy) (policy : Policy) (config : PolicyEngineConfig)
      (doc : XmlNode) (k : Nat) (p : String) (e : VaultEntry),
      (p, e) ∈ (gatekeeperMask E policy config doc k).2.1.entries →
      ∃ j, k ≤ j ∧ j < (gatekeeperMask E policy config doc k).2.2 ∧
        p = ph E j ∧ e.masked_value = ph E j ∧ e.created_at = E.times j := by
    intro E policy config doc k p e hmem
    simp only [gatekeeperMask] at hmem ⊢
    by_cases hg : (policy.global_masking ||
        !(policy.rules.filter (fun r => r.action = Action.mask_value)).isEmpty) = true
    · rw [if_pos hg] at hmem ⊢
      rcases maskNode_mem E doc ⟨config.vault_path, []⟩ k p e hmem with h1 | h2
      · simp at h1
      · exact h2
    · rw [if_neg hg] at hmem
      simp at hmem
  refine ⟨hprov, ?_, ?_⟩
  · intro mt ent E path doc policy config tmap fs k sp vp fs' h
    by_cases hg : (config.shuffling.enabled &&
        !(policy.rules.filter (fun r => r.action = Action.shuffle_siblings)).isEmpty) = true
    · simp only [apply_gatekeeper] at h
      rw [if_pos hg] at h
      exact absurd h (by simp)
    · simp only [apply_gatekeeper] at h
      rw [if_neg hg] at h
      simp only [Except.ok.injEq, Prod.mk.injEq] at h
      obtain ⟨hsp, hvp, hfs⟩ := h
      refine ⟨hvp.symm, ?_⟩
      rw [← hfs]
      simp only [Vault.save]
      rw [gatekeeperMask_path E policy config doc k]
      exact dictGet_dictSet_self _ _ _
  · intro E₁ E₂ policy₁ policy₂ config₁ config₂ doc₁ doc₂ k₁ k₂ p e hmem hfresh hmem2
    obtain ⟨j, hj1, hj2, hj3, _⟩ :=
      hprov E₂ policy₂ config₂ doc₂ k₂ p e hmem2
    exact hfresh j hj1 hj2 hj3

/-- C10 witness: a concrete completed run (shuffling disabled so the
pipeline reaches the save) whose vault file holds exactly its own two
entries, and absence of a first-run pair after a second run with fresh
draws. -/
theorem claim_C10_witness :
    (dictGet (((apply_gatekeeper (fun _ _ => 0) (fun _ => 0) entropyDistinct
        "in.xml" exDocC2 { global_masking := true }
        { shuffling := ⟨false, none, []⟩ } none
        [("./session_vault.json", FileVal.raw "stale")] 0).toOption.map
          (fun r => r.2.2)).getD []) "./session_vault.json" =
      some (FileVal.vaultJson
        (gatekeeperMask entropyDistinct { global_masking := true }
          { shuffling := ⟨false, none, []⟩ } exDocC2 0).2.1.entries)) ∧
    (ph entropyDistinct 0,
      (⟨ph entropyDistinct 0, "5", entropyDistinct.times 0⟩ : VaultEntry)) ∉
      (gatekeeperMask ⟨fun _ => "dddddddddddddddddddddddddddddddd", fun _ => "t9"⟩
        { global_masking := true } {} exDocC2 0).2.1.entries := by
  constructor
  · have h := (claim_C10_fresh_vault_wholesale_overwrite.2.1
      (fun _ _ => 0) (fun _ => 0) entropyDistinct "in.xml" exDocC2
      { global_masking := true } { shuffling := ⟨false, none, []⟩ } none
      [("./session_vault.json", FileVal.raw "stale")] 0
      "in.xml_sanitized.xml" "./session_vault.json"
      (((apply_gatekeeper (fun _ _ => 0) (fun _ => 0) entropyDistinct
        "in.xml" exDocC2 { global_masking := true }
        { shuffling := ⟨false, none, []⟩ } none
        [("./session_vault.json", FileVal.raw "stale")] 0).toOption.map
          (fun r => r.2.2)).getD []) (by rfl)).2
    exact h
  · exact claim_C10_fresh_vault_wholesale_overwrite.2.2 entropyDistinct
      ⟨fun _ => "dddddddddddddddddddddddddddddddd", fun _ => "t9"⟩
      { global_masking := true } { global_masking := true } {} {}
      exDocC2 exDocC2 0 0 (ph entropyDistinct 0)
      ⟨ph entropyDistinct 0, "5", entropyDistinct.times 0⟩
      (by decide) (by decide)

/-! ## C6 — rehydration idempotence -/

/-- Entropy delivering `bbbb…` then `aaaa…`, used to build (via two plain
`store` calls, so the state is reachable) a vault in which one original
value is itself another entry's placeholder. -/
def entropyBA : Entropy :=
  ⟨fun n => if n = 0 then "bbbbbbbbbbbbbbbbbbbbbbbbbbbbbbbb"
            else "aaaaaaaaaaaaaaaaaaaaaaaaaaaaaaaa",
   fun _ => "t"⟩

/-- `store("c")` then `store("VAL_bbbbbbbbbbbb")`: the second original is
the first entry's placeholder. -/
def vaultChained : Vault :=
  (Vault.store entropyBA (Vault.store entropyBA ⟨"p", []⟩ 0 "c").2.1 1
    "VAL_bbbbbbbbbbbb").2.1

/-- C6 counterexample: on `vaultChained` (reachable by two `store` calls),
rehydrating `"VAL_aaaaaaaaaaaa"` once yields `"VAL_bbbbbbbbbbbb"` and a
second pass rewrites that to `"c"` — both `rehydrate_xml` and
`rehydrate_dict` are not idempotent for every vault state. -/
theorem claim_C6_counterexample :
    Vault.rehydrate_xml vaultChained
        (Vault.rehydrate_xml vaultChained "VAL_aaaaaaaaaaaa") ≠
      Vault.rehydrate_xml vaultChained "VAL_aaaaaaaaaaaa" ∧
    Vault.rehydrate_dict vaultChained
        (Vault.rehydrate_dict vaultChained (JVal.s "VAL_aaaaaaaaaaaa")) ≠
      Vault.rehydrate_dict vaultChained (JVal.s "VAL_aaaaaaaaaaaa") := by
  constructor
  · decide
  · intro h
    have h1 : Vault.rehydrate_dict vaultChained (JVal.s "VAL_aaaaaaaaaaaa") =
        JVal.s "VAL_bbbbbbbbbbbb" := rfl
    have h2 : Vault.rehydrate_dict vaultChained (JVal.s "VAL_bbbbbbbbbbbb") =
        JVal.s "c" := rfl
    rw [h1, h2] at h
    injection h with hs
    exact absurd hs (by decide)

theorem rehydrate_value_idem (v : Vault)
    (H : ∀ p o, v.restore p = some o → v.restore o = none) (x : String) :
    v.rehydrate_value (v.rehydrate_value x) = v.rehydrate_value x := by
  cases hr : v.restore x with
  | none => simp [Vault.rehydrate_value, hr]
  | some o =>
    have ho := H x o hr
    simp [Vault.rehydrate_value, hr, ho]

mutual

theorem rehydrate_dict_idem (v : Vault)
    (H : ∀ p o, v.restore p = some o → v.restore o = none) :
    ∀ j : JVal, v.rehydrate_dict (v.rehydrate_dict j) = v.rehydrate_dict j := by
  intro j
  cases j with
  | s x =>
    simp only [Vault.rehydrate_dict]
    rw [rehydrate_value_idem v H x]
  | obj l =>
    simp only [Vault.rehydrate_dict]
    rw [rehydrateObj_idem v H l]
  | arr l =>
    simp only [Vault.rehydrate_dict]
    rw [rehydrateArr_idem v H l]
  | scalar n => simp [Vault.rehydrate_dict]

theorem rehydrateObj_idem (v : Vault)
    (H : ∀ p o, v.restore p = some o → v.restore o = none) :
    ∀ l : List (String × JVal), rehydrateObj v (rehydrateObj v l) = rehydrateObj v l := by
  intro l
  cases l with
  | nil => simp [rehydrateObj]
  | cons kv t =>
    obtain ⟨k, x⟩ := kv
    simp only [rehydrateObj]
    rw [rehydrate_dict_idem v H x, rehydrateObj_idem v H t]

theorem rehydrateArr_idem (v : Vault)
    (H : ∀ p o, v.restore p = some o → v.restore o = none) :
    ∀ l : List JVal, rehydrateArr v (rehydrateArr v l) = rehydrateArr v l := by
  intro l
  cases l with
  | nil => simp [rehydrateArr]
  | cons x t =>
    simp only [rehydrateArr]
    rw [rehydrate_dict_idem v H x, rehydrateArr_idem v H t]

end

/-! ### Text-mode idempotence under safe originals -/

/-- The guard the counterexample forces: every original value stored in the
vault is non-empty and contains none of the placeholder-marker characters
`V`, `A`, `L`, `_` (the numeric literals Stage A stores always satisfy
this). -/
def SafeOriginals (v : Vault) : Prop :=
  ∀ p o, v.restore p = some o → o.data ≠ [] ∧
    ∀ c ∈ o.data, c ≠ 'V' ∧ c ≠ 'A' ∧ c ≠ 'L' ∧ c ≠ '_'

theorem matchAt_none_of_head {c : Char} (t : List Char) (hc : c ≠ 'V') :
    matchAt (c :: t) = none := by
  match t with
  | [] => rfl
  | [b] => rfl
  | [b, d] => rfl
  | b :: d :: e :: rest =>
    simp only [matchAt]
    rw [if_neg (fun hh => hc hh.1)]

/-- Head of the scanned list is absent or not alphanumeric. -/
def headOkN : List Char → Prop
  | [] => True
  | c :: _ => isAlnumCh c = false

theorem headOkN_dropWhile (l : List Char) : headOkN (l.dropWhile isAlnumCh) := by
  induction l with
  | nil => trivial
  | cons c t ih =>
    rw [List.dropWhile_cons]
    by_cases hc : isAlnumCh c = true
    · rw [if_pos hc]; exact ih
    · rw [if_neg hc]
      simpa [headOkN] using hc

theorem takeWhile_append_all (run W : List Char)
    (hall : ∀ c ∈ run, isAlnumCh c = true) (hW : headOkN W) :
    (run ++ W).takeWhile isAlnumCh = run ∧ (run ++ W).dropWhile isAlnumCh = W := by
  induction run with
  | nil =>
    simp only [List.nil_append]
    cases W with
    | nil => exact ⟨rfl, rfl⟩
    | cons w ws =>
      have hw : isAlnumCh w = false := hW
      rw [List.takeWhile_cons, List.dropWhile_cons]
      rw [if_neg (by simp [hw]), if_neg (by simp [hw])]
      exact ⟨rfl, rfl⟩
  | cons r rs ih =>
    have hr : isAlnumCh r = true := hall r (List.mem_cons_self r rs)
    obtain ⟨ih1, ih2⟩ := ih (fun c hc => hall c (List.mem_cons_of_mem r hc))
    simp only [List.cons_append, List.takeWhile_cons, List.dropWhile_cons]
    rw [if_pos hr, if_pos hr, ih1, ih2]
    exact ⟨rfl, rfl⟩

theorem subScan_append_noV (v : Vault) (r W : List Char)
    (hr : ∀ c ∈ r, c ≠ 'V') :
    subScan v (r ++ W) = r ++ subScan v W := by
  induction r with
  | nil => simp
  | cons c r' ih =>
    rw [List.cons_append,
        subScan_eq_none (matchAt_none_of_head _ (hr c (List.mem_cons_self c r'))),
        ih (fun x hx => hr x (List.mem_cons_of_mem c hx))]
    rfl

theorem headOkN_subScan (v : Vault) (l : List Char) (h : headOkN l) :
    headOkN (subScan v l) := by
  cases l with
  | nil => rw [subScan_nil]; trivial
  | cons c cs =>
    have hna : isAlnumCh c = false := h
    have hc : c ≠ 'V' := by
      intro he
      rw [he] at hna
      exact absurd hna (by decide)
    rw [subScan_eq_none (matchAt_none_of_head cs hc)]
    exact hna

/-- No `'_' followed by alphanumeric` at the head. -/
def P1 (l : List Char) : Prop := ∀ t, l = '_' :: t → headOkN t

/-- No `"L_" followed by alphanumeric` at the head. -/
def P2 (l : List Char) : Prop := ∀ t, l = 'L' :: t → P1 t

/-- No `"AL_" followed by alphanumeric` at the head. -/
def P3 (l : List Char) : Prop := ∀ t, l = 'A' :: t → P2 t

/-- The first token of a scan output, when the output is nonempty, is
either a kept character (identical to the input's head, non-matching), a
known replacement head (never a marker character), or an unknown token head
`'V'`.  The three ladder lemmas below use this shape analysis. -/
theorem ladder_step (v : Vault) (H : SafeOriginals v) (ch : Char)
    (hch : ch = '_' ∨ ch = 'L' ∨ ch = 'A') (l t : List Char)
    (hout : subScan v l = ch :: t) :
    ∃ cs, l = ch :: cs ∧ matchAt l = none ∧ t = subScan v cs := by
  cases l with
  | nil => rw [subScan_nil] at hout; exact absurd hout (by simp)
  | cons c cs =>
    cases hm : matchAt (c :: cs) with
    | none =>
      rw [subScan_eq_none hm] at hout
      injection hout with h1 h2
      refine ⟨cs, ?_, rfl, h2.symm⟩
      rw [h1]
    | some pr =>
      obtain ⟨tok, rest⟩ := pr
      rw [subScan_eq_some hm] at hout
      obtain ⟨tail, hleq, hne, htok, hrest⟩ := matchAt_some hm
      cases hro : v.restore (String.mk tok) with
      | some o =>
        simp only [hro] at hout
        obtain ⟨hone, hchars⟩ := H _ _ hro
        cases hod : o.data with
        | nil => exact absurd hod hone
        | cons d ds =>
          rw [hod, List.cons_append] at hout
          injection hout with h1 _
          have hd := hchars d (by rw [hod]; exact List.mem_cons_self d ds)
          rcases hch with h | h | h
          · exact absurd (h ▸ h1) hd.2.2.2
          · exact absurd (h ▸ h1) hd.2.2.1
          · exact absurd (h ▸ h1) hd.2.1
      | none =>
        simp only [hro] at hout
        rw [htok, List.cons_append] at hout
        injection hout with h1 _
        rcases hch with h | h | h <;> (rw [h] at h1; exact absurd h1 (by decide))

theorem ladderP1 (v : Vault) (H : SafeOriginals v) (l : List Char) (h : P1 l) :
    P1 (subScan v l) := by
  intro t ht
  obtain ⟨cs, hl, _, hts⟩ := ladder_step v H '_' (Or.inl rfl) l t ht
  rw [hts]
  exact headOkN_subScan v cs (h cs hl)

theorem ladderP2 (v : Vault) (H : SafeOriginals v) (l : List Char) (h : P2 l) :
    P2 (subScan v l) := by
  intro t ht
  obtain ⟨cs, hl, _, hts⟩ := ladder_step v H 'L' (Or.inr (Or.inl rfl)) l t ht
  rw [hts]
  exact ladderP1 v H cs (h cs hl)

theorem ladderP3 (v : Vault) (H : SafeOriginals v) (l : List Char) (h : P3 l) :
    P3 (subScan v l) := by
  intro t ht
  obtain ⟨cs, hl, _, hts⟩ := ladder_step v H 'A' (Or.inr (Or.inr rfl)) l t ht
  rw [hts]
  exact ladderP2 v H cs (h cs hl)

theorem P3_of_matchAt_V_none {x : List Char} (h : matchAt ('V' :: x) = none) :
    P3 x := by
  intro t1 ht1
  subst ht1
  intro t2 ht2
  subst ht2
  intro t3 ht3
  subst ht3
  cases t3 with
  | nil => trivial
  | cons r rs =>
    by_cases hr : isAlnumCh r = true
    · exfalso
      have : matchAt ('V' :: 'A' :: 'L' :: '_' :: r :: rs) ≠ none := by
        simp only [matchAt]
        rw [if_pos (by simp)]
        rw [List.takeWhile_cons, if_pos hr]
        simp
      exact this h
    · simpa [headOkN] using hr

theorem matchAt_V_none_of_P3 {x : List Char} (h : P3 x) :
    matchAt ('V' :: x) = none := by
  match x with
  | [] => rfl
  | [a] => rfl
  | [a, b] => rfl
  | a :: b :: c2 :: rest =>
    by_cases h4 : a = 'A' ∧ b = 'L' ∧ c2 = '_'
    · obtain ⟨ha, hb, hc⟩ := h4
      subst ha; subst hb; subst hc
      have h0 : headOkN rest := ((h _ rfl) _ rfl) _ rfl
      simp only [matchAt]
      rw [if_pos (by simp)]
      have hrun : rest.takeWhile isAlnumCh = [] := by
        cases rest with
        | nil => rfl
        | cons r0 rs =>
          have : isAlnumCh r0 = false := h0
          rw [List.takeWhile_cons, if_neg (by simp [this])]
      rw [if_pos hrun]
    · simp only [matchAt]
      rw [if_neg (fun hh => h4 hh.2)]

theorem matchAt_none_subScan (v : Vault) (H : SafeOriginals v) (c : Char)
    (cs : List Char) (hm : matchAt (c :: cs) = none) :
    matchAt (c :: subScan v cs) = none := by
  by_cases hc : c = 'V'
  · subst hc
    exact matchAt_V_none_of_P3 (ladderP3 v H cs (P3_of_matchAt_V_none hm))
  · exact matchAt_none_of_head _ hc

theorem matchAt_tok_append (run W : List Char) (hrun : run ≠ [])
    (hall : ∀ c ∈ run, isAlnumCh c = true) (hW : headOkN W) :
    matchAt (('V' :: 'A' :: 'L' :: '_' :: run) ++ W) =
      some ('V' :: 'A' :: 'L' :: '_' :: run, W) := by
  simp only [List.cons_append, matchAt]
  rw [if_pos (by simp)]
  obtain ⟨ht, hd⟩ := takeWhile_append_all run W hall hW
  rw [ht, hd, if_neg hrun]

/-- The scan is idempotent when every stored original is safe: a second
pass finds only the unchanged unknown tokens, which it keeps unchanged. -/
theorem subScan_idem (v : Vault) (H : SafeOriginals v) :
    ∀ l, subScan v (subScan v l) = subScan v l := by
  suffices hs : ∀ n l, l.length ≤ n → subScan v (subScan v l) = subScan v l by
    intro l
    exact hs l.length l le_rfl
  intro n
  induction n using Nat.strong_induction_on with
  | _ n ih =>
    intro l hl
    cases hm : matchAt l with
    | none =>
      cases l with
      | nil => rfl
      | cons c cs =>
        rw [subScan_eq_none hm,
            subScan_eq_none (matchAt_none_subScan v H c cs hm)]
        have hlen : cs.length < n := by
          simp only [List.length_cons] at hl
          omega
        rw [ih cs.length hlen cs le_rfl]
    | some pr =>
      obtain ⟨tok, rest⟩ := pr
      have hrl := matchAt_length hm
      have hrlen : rest.length < n := by omega
      obtain ⟨tail, hleq, hne, htok, hrest⟩ := matchAt_some hm
      rw [subScan_eq_some hm]
      cases hro : v.restore (String.mk tok) with
      | some o =>
        simp only [hro]
        obtain ⟨hone, hchars⟩ := H _ _ hro
        rw [subScan_append_noV v o.data (subScan v rest)
            (fun c hc => (hchars c hc).1)]
        rw [ih rest.length hrlen rest le_rfl]
      | none =>
        simp only [hro]
        have hall : ∀ c ∈ tail.takeWhile isAlnumCh, isAlnumCh c = true :=
          fun c hc => List.mem_takeWhile_imp hc
        have hW : headOkN (subScan v rest) := by
          apply headOkN_subScan
          rw [hrest]
          exact headOkN_dropWhile tail
        have hm2 : matchAt (tok ++ subScan v rest) =
            some (tok, subScan v rest) := by
          rw [htok]
          exact matchAt_tok_append _ _ hne hall hW
        rw [subScan_eq_some hm2]
        simp only [hro]
        rw [ih rest.length hrlen rest le_rfl]

/-- C6 (amended): both rehydration operations are idempotent *provided*
the vault's original values cannot themselves be rewritten — for
`rehydrate_dict`, no stored original is itself a known placeholder; for
`rehydrate_text`/`rehydrate_xml`, no stored original is empty or contains
one of the marker characters `V`, `A`, `L`, `_` (numeric literals, the
values Stage A stores, always qualify).  Without such a guard idempotence
fails (see the counterexample). -/
theorem claim_C6_amended_idempotence (v : Vault) :
    ((∀ p o, v.restore p = some o → v.restore o = none) →
        ∀ j, v.rehydrate_dict (v.rehydrate_dict j) = v.rehydrate_dict j) ∧
    (SafeOriginals v →
        ∀ s, v.rehydrate_xml (v.rehydrate_xml s) = v.rehydrate_xml s) := by
  constructor
  · intro H j
    exact rehydrate_dict_idem v H j
  · intro H s
    show String.mk (subScan v (String.mk (subScan v s.data)).data) =
      String.mk (subScan v s.data)
    exact congrArg String.mk (subScan_idem v H s.data)

/-- A vault with one numeric original, as Stage A produces. -/
def vaultW : Vault :=
  ⟨"p", [("VAL_cafecafecafe", ⟨"VAL_cafecafecafe", "123.45", "t"⟩)]⟩

theorem vaultW_restore (p : String) (o : String)
    (h : Vault.restore vaultW p = some o) : o = "123.45" := by
  simp only [Vault.restore, vaultW, dictGet] at h
  by_cases hp : ("VAL_cafecafecafe" : String) = p
  · rw [if_pos hp] at h
    simpa using h.symm
  · rw [if_neg hp] at h
    simp at h

/-- C6 amended witness: both idempotence statements applied to `vaultW` at
concrete inputs, hypotheses discharged concretely. -/
theorem claim_C6_amended_idempotence_witness :
    Vault.rehydrate_dict vaultW
        (Vault.rehydrate_dict vaultW (JVal.s "VAL_cafecafecafe")) =
      Vault.rehydrate_dict vaultW (JVal.s "VAL_cafecafecafe") ∧
    Vault.rehydrate_xml vaultW
        (Vault.rehydrate_xml vaultW "a VAL_cafecafecafe b VAL_unknown9") =
      Vault.rehydrate_xml vaultW "a VAL_cafecafecafe b VAL_unknown9" :=
  ⟨(claim_C6_amended_idempotence vaultW).1
    (fun p o h => by rw [vaultW_restore p o h]; decide)
    (JVal.s "VAL_cafecafecafe"),
   (claim_C6_amended_idempotence vaultW).2
    (fun p o h => by rw [vaultW_restore p o h]; exact ⟨by decide, by decide⟩)
    "a VAL_cafecafecafe b VAL_unknown9"⟩

end MoltShield
